import Mathlib

/-!
# Verification of the DAG scheduler (`src/lib/dag.py`)

A shallow embedding of the `DAGBuilder` class from `src/lib/dag.py` and
its supporting data model from `src/lib/parser.py`, together with proofs
of the specification's claims about it.

Modelling conventions:
* Python `dict` (insertion ordered) becomes an association list
  `List (String × DAGNode)`; assignment to an existing key replaces the
  value in place (keeping the key's position), assignment to a fresh key
  appends — exactly Python 3.7+ `dict` semantics (`dictInsert`).
* Python `set` fields (`dependencies`, `dependents`) become duplicate-free
  lists maintained by membership-checked insertion (`insertIfNew`).
  Python's set iteration order is unspecified; the embedding fixes
  insertion order.  All proved properties are insensitive to that order.
* Python unbounded recursion / `while` loops become fuel-indexed
  functions returning `Option`; `none` (fuel exhaustion) is proved
  unreachable for the graphs the claims are about, and `_build` /
  `get_execution_order` surface it as the artificial `DAGError.fuelOut`
  which is likewise proved unreachable there.
* Python `int` becomes `Int` (the Kahn in-degree counter really can go
  negative in the source, so `Nat` would be unfaithful).
* `raise ValueError(...)` becomes `Except.error` with a constructor of
  `DAGError` identifying which of the three distinct `raise` sites in
  `dag.py` fired (plus the `ValueError` that Python's builtin
  `range(0, n, 0)` raises inside `get_parallel_groups`).
-/

set_option maxHeartbeats 1000000

/-- `SuiteConfig` from `src/lib/parser.py`. -/
structure SuiteConfig where
  timeout : Int := 300
  retries : Int := 0
  parallel : Bool := true
  coverage : Bool := true
  deriving DecidableEq, Repr

/-- `TestSuite` from `src/lib/parser.py`: the suite descriptor consumed by
the DAG builder. Only `name` and `dependencies` are interpreted. -/
structure TestSuite where
  name : String
  category : String := "unit"
  files : List String := []
  dependencies : List String := []
  config : SuiteConfig := {}
  deriving DecidableEq, Repr

/-- `DAGNode` from `src/lib/dag.py`. -/
structure DAGNode where
  suite : TestSuite
  dependencies : List String := []
  dependents : List String := []
  executed : Bool := false
  status : Option String := none
  deriving DecidableEq, Repr

/-- The `self.nodes` dict of `DAGBuilder`: an insertion-ordered map from
suite name to node. -/
abbrev Nodes := List (String × DAGNode)

/-- The error taxonomy: one constructor per distinct `raise` site reachable
from the embedded methods, plus `fuelOut`, an artifact of the bounded
model (proved unreachable on graphs the claims quantify over). -/
inductive DAGError where
  /-- `Suite '{suite}' depends on unknown suite '{dep}'` (`_build`). -/
  | unknownDependency (suite dep : String)
  /-- `Circular dependency detected: ...` (`_detect_cycles`). -/
  | circularDependency (cyclePath : List String)
  /-- `Could not schedule all suites. Unexecuted: ...` (`get_execution_order`). -/
  | schedulingIncomplete (unexecuted : List String)
  /-- Python's builtin `ValueError: range() arg 3 must not be zero`,
  raised by `range(0, len(group), 0)` in `get_parallel_groups`. -/
  | rangeZeroStep
  /-- Fuel exhaustion: a modelling artifact, not a Python behaviour. -/
  | fuelOut
  deriving DecidableEq, Repr

/-- Dict lookup `self.nodes.get(name)`. -/
def lookupNode (nodes : Nodes) (name : String) : Option DAGNode :=
  (nodes.find? (fun p => p.1 = name)).map (·.2)

/-- In-place mutation of the node stored under an existing key
(`self.nodes[name].field = ...`): a no-op when the key is absent. -/
def setNode (nodes : Nodes) (name : String) (f : DAGNode → DAGNode) : Nodes :=
  nodes.map (fun p => if p.1 = name then (p.1, f p.2) else p)

/-- Python dict assignment `self.nodes[k] = v`: replace in place if the
key exists (keeping its position), else append. -/
def dictInsert (nodes : Nodes) (k : String) (v : DAGNode) : Nodes :=
  if (lookupNode nodes k).isSome then
    nodes.map (fun p => if p.1 = k then (p.1, v) else p)
  else
    nodes ++ [(k, v)]

/-- Python `set.add`: append unless already present. -/
def insertIfNew (l : List String) (a : String) : List String :=
  if a ∈ l then l else l ++ [a]

/-- `DAGNode(suite=suite)` with all defaults. -/
def mkNode (s : TestSuite) : DAGNode :=
  { suite := s }

/-- First loop of `_build`: `for suite in plan.suites:
self.nodes[suite.name] = DAGNode(suite=suite)`. -/
def createNodes : List TestSuite → Nodes → Nodes
  | [], ns => ns
  | s :: rest, ns => createNodes rest (dictInsert ns s.name (mkNode s))

/-- `node.dependencies.add(dep_name)`. -/
def addDepFn (dep : String) (d : DAGNode) : DAGNode :=
  { d with dependencies := insertIfNew d.dependencies dep }

/-- `self.nodes[dep_name].dependents.add(suite.name)`. -/
def addDepdFn (name : String) (d : DAGNode) : DAGNode :=
  { d with dependents := insertIfNew d.dependents name }

/-- The two mutations done for one accepted dependency edge:
`node.dependencies.add(dep_name)` then
`self.nodes[dep_name].dependents.add(suite.name)`. -/
def addEdge (ns : Nodes) (name dep : String) : Nodes :=
  setNode (setNode ns name (addDepFn dep)) dep (addDepdFn name)

/-- Inner loop of `_build` over `suite.dependencies`. -/
def addSuiteDeps (name : String) : List String → Nodes → Except DAGError Nodes
  | [], ns => .ok ns
  | dep :: rest, ns =>
    if (lookupNode ns dep).isSome then
      addSuiteDeps name rest (addEdge ns name dep)
    else
      .error (.unknownDependency name dep)

/-- Second loop of `_build`: populate both edge sets, failing on the first
dependency name that is not a node. -/
def addAllEdges : List TestSuite → Nodes → Except DAGError Nodes
  | [], ns => .ok ns
  | s :: rest, ns =>
    match addSuiteDeps s.name s.dependencies ns with
    | .ok ns' => addAllEdges rest ns'
    | .error e => .error e

/-- Forward edge set of a name: `self.nodes[name].dependencies`
(empty for a non-node). -/
def depsOf (nodes : Nodes) (name : String) : List String :=
  ((lookupNode nodes name).map (·.dependencies)).getD []

/-- Reverse edge set of a name: `self.nodes[name].dependents`
(empty for a non-node). -/
def depdsOf (nodes : Nodes) (name : String) : List String :=
  ((lookupNode nodes name).map (·.dependents)).getD []

/-- `name in self.nodes`. -/
def isNode (nodes : Nodes) (name : String) : Bool :=
  (lookupNode nodes name).isSome

/-- The execution flag of a name (false for a non-node). -/
def executedOf (nodes : Nodes) (name : String) : Bool :=
  ((lookupNode nodes name).map (·.executed)).getD false

/-- The recorded status of a name (none for a non-node). -/
def statusOf (nodes : Nodes) (name : String) : Option String :=
  ((lookupNode nodes name).map (·.status)).getD none

/-- The three colors of `_detect_cycles` (`WHITE, GRAY, BLACK = 0, 1, 2`). -/
inductive Color where
  | white
  | gray
  | black
  deriving DecidableEq, Repr

/-- The `color` dict, total over strings (only node names are consulted). -/
abbrev ColorMap := String → Color

/-- `color[n] = v`. -/
def setC (c : ColorMap) (n : String) (v : Color) : ColorMap :=
  fun x => if x = n then v else c x

/-- `cycle = path[path.index(dep):] + [dep]`. -/
def cyclePathOf (path : List String) (dep : String) : List String :=
  path.drop (path.indexOf dep) ++ [dep]

mutual

/-- The inner `dfs(node_name)` of `_detect_cycles`: color the node gray,
push it on the path, visit its dependencies, then color it black.  The
`path` argument is restored on normal return in the source (push/pop), so
the embedding threads only the color map.  `fuel` bounds recursion depth;
`none` = fuel ran out (proved unreachable for the graphs used). -/
def dfs (nodes : Nodes) : Nat → String → ColorMap → List String →
    Option (Except DAGError ColorMap)
  | 0, _, _, _ => none
  | fuel + 1, name, color, path =>
    dfsDeps nodes fuel (depsOf nodes name)
      (setC color name Color.gray) (path ++ [name]) |>.map
      (fun r => r.map (fun c => setC c name Color.black))
termination_by fuel _ _ _ => (fuel, 0)

/-- The `for dep in self.nodes[node_name].dependencies` loop inside `dfs`:
a gray dependency raises the circular-dependency error, a white one is
visited recursively, a black one is skipped. -/
def dfsDeps (nodes : Nodes) : Nat → List String → ColorMap → List String →
    Option (Except DAGError ColorMap)
  | _, [], color, _ => some (.ok color)
  | fuel, dep :: rest, color, path =>
    if color dep = Color.gray then
      some (.error (.circularDependency (cyclePathOf path dep)))
    else if color dep = Color.white then
      match dfs nodes fuel dep color path with
      | none => none
      | some (.error e) => some (.error e)
      | some (.ok c') => dfsDeps nodes fuel rest c' path
    else
      dfsDeps nodes fuel rest color path
termination_by fuel ds _ _ => (fuel, ds.length + 1)

end

/-- The top loop of `_detect_cycles`: run `dfs` from every still-white
node, in node-insertion order.  The path starts empty at each root call
(the source's shared `path` list is empty again whenever `dfs` returns
normally). -/
def detectLoop (nodes : Nodes) (fuel : Nat) :
    List String → ColorMap → Option (Except DAGError Unit)
  | [], _ => some (.ok ())
  | n :: rest, color =>
    if color n = Color.white then
      match dfs nodes fuel n color [] with
      | none => none
      | some (.error e) => some (.error e)
      | some (.ok c') => detectLoop nodes fuel rest c'
    else
      detectLoop nodes fuel rest color

/-- `_detect_cycles`: DFS from every node, all nodes initially white.
Fuel `|nodes| + 1` dominates the recursion depth (at most one frame per
white node plus the root). -/
def detect_cycles (nodes : Nodes) : Option (Except DAGError Unit) :=
  detectLoop nodes (nodes.length + 1) (nodes.map Prod.fst) (fun _ => Color.white)

/-- `_build` (and hence `DAGBuilder.__init__`): create one node per suite
(later duplicates silently overwrite earlier ones), populate both edge
sets rejecting unknown dependency names, then detect cycles. -/
def _build (suites : List TestSuite) : Except DAGError Nodes :=
  match addAllEdges suites (createNodes suites []) with
  | .error e => .error e
  | .ok ns' =>
    match detect_cycles ns' with
    | none => .error .fuelOut
    | some (.error e) => .error e
    | some (.ok _) => .ok ns'

/-- The `for dependent in node.dependents` loop of `get_execution_order`:
decrement each dependent's in-degree, enqueueing it when the decrement
lands exactly on zero. -/
def processDependents : List String → (String → Int) → List String →
    (String → Int) × List String
  | [], inDeg, q => (inDeg, q)
  | d :: rest, inDeg, q =>
    let inDeg' : String → Int := fun n => if n = d then inDeg d - 1 else inDeg n
    let q' := if inDeg' d = 0 then q ++ [d] else q
    processDependents rest inDeg' q'

/-- The `for name in current_group` loop of `get_execution_order`: mark
each member executed, then process its dependents. -/
def processGroup : List String → Nodes → (String → Int) → List String →
    Nodes × (String → Int) × List String
  | [], ns, inDeg, q => (ns, inDeg, q)
  | name :: rest, ns, inDeg, q =>
    let ns' := setNode ns name (fun d => { d with executed := true })
    let (inDeg', q') := processDependents (depdsOf ns' name) inDeg q
    processGroup rest ns' inDeg' q'

/-- The `while queue` loop of `get_execution_order`.  `fuel` bounds the
number of iterations (each nonempty queue round schedules at least one
new suite, so `|nodes| + 1` rounds suffice; proved where needed). -/
def kahnLoop : Nat → List String → Nodes → (String → Int) →
    List (List String) → Option (List (List String) × Nodes)
  | 0, _, _, _, _ => none
  | _ + 1, [], ns, _, acc => some (acc, ns)
  | fuel + 1, q, ns, inDeg, acc =>
    let (ns', inDeg', q') := processGroup q ns inDeg []
    kahnLoop fuel q' ns' inDeg' (acc ++ [q])

/-- `get_execution_order`: Kahn's algorithm by iterative peeling.  Note
the source uses each node's *runtime* `executed` flag as its "scheduled"
marker, so the method mutates the graph: the returned `Nodes` is the
post-call state of `self.nodes`. -/
def get_execution_order (nodes : Nodes) :
    Except DAGError (List (List String)) × Nodes :=
  let inDeg : String → Int := fun n => ((depsOf nodes n).length : Int)
  let q0 := (nodes.map Prod.fst).filter (fun n => inDeg n = 0)
  match kahnLoop (nodes.length + 1) q0 nodes inDeg [] with
  | none => (.error .fuelOut, nodes)
  | some (groups, ns') =>
    let unexecuted := (ns'.filter (fun p => !p.2.executed)).map Prod.fst
    if unexecuted.isEmpty then (.ok groups, ns')
    else (.error (.schedulingIncomplete unexecuted), ns')

/-- Python `range(start, stop, step)` for a *positive* step, encoded as
`step1 + 1` to make termination structural: the indices
`start, start+step, ...` below `stop`. -/
def pyRangePos (start stop step1 : Nat) : List Nat :=
  if start < stop then start :: pyRangePos (start + (step1 + 1)) stop step1 else []
termination_by stop - start

/-- The `for i in range(0, len(group), max_parallel)` chunking of one
group.  `none` models the `ValueError` Python's `range` raises for a zero
step; a negative step yields an empty range (since `len(group) ≥ 0`), so
the whole group is silently dropped. -/
def pyChunks (group : List String) (maxParallel : Int) :
    Option (List (List String)) :=
  if maxParallel = 0 then none
  else if maxParallel < 0 then some []
  else some ((pyRangePos 0 group.length (maxParallel.toNat - 1)).map
    (fun i => (group.drop i).take maxParallel.toNat))

/-- The `for group in groups` loop of `get_parallel_groups`. -/
def splitGroups : List (List String) → Int → Except DAGError (List (List String))
  | [], _ => .ok []
  | g :: rest, mp =>
    match pyChunks g mp with
    | none => .error .rangeZeroStep
    | some cs =>
      match splitGroups rest mp with
      | .ok rs => .ok (cs ++ rs)
      | .error e => .error e

/-- `get_parallel_groups(max_parallel)`: compute the static order, then
split each group into `max_parallel`-bounded chunks.  Like
`get_execution_order` it returns the mutated `self.nodes`. -/
def get_parallel_groups (nodes : Nodes) (max_parallel : Int) :
    Except DAGError (List (List String)) × Nodes :=
  match get_execution_order nodes with
  | (.error e, ns') => (.error e, ns')
  | (.ok groups, ns') => (splitGroups groups max_parallel, ns')

/-- `get_suite(name)`. -/
def get_suite (nodes : Nodes) (name : String) : Option TestSuite :=
  (lookupNode nodes name).map (·.suite)

/-- `get_dependencies(name)`. -/
def get_dependencies (nodes : Nodes) (name : String) : List String :=
  depsOf nodes name

/-- `mark_executed(name, status)`: flip the flag and record the status —
silently, and only if the name is a node. -/
def mark_executed (nodes : Nodes) (name status : String) : Nodes :=
  if (lookupNode nodes name).isSome then
    setNode nodes name (fun d => { d with executed := true, status := some status })
  else
    nodes

/-- `is_ready(name)`: false for a non-node; otherwise true iff every
declared dependency's execution flag is set.  (The source does *not*
consult the suite's own flag.)  A dependency absent from the map would be
a `KeyError` in Python; it reads as an unset flag here and is proved
unreachable on built graphs. -/
def is_ready (nodes : Nodes) (name : String) : Bool :=
  match lookupNode nodes name with
  | none => false
  | some node => node.dependencies.all (fun dep => executedOf nodes dep)

/-- `get_ready_suites()`: all unexecuted suites whose `is_ready` holds,
in node-insertion order. -/
def get_ready_suites (nodes : Nodes) : List String :=
  (nodes.filter (fun p => !p.2.executed && is_ready nodes p.1)).map Prod.fst

/-- The dict returned by `get_stats`. -/
structure Stats where
  total_suites : Nat
  executed : Nat
  pending : Nat
  parallel_groups : Nat
  deriving DecidableEq, Repr

/-- `get_stats`: counts are taken *before* the embedded
`get_execution_order` call (Python evaluates the dict literal's values in
order), and the call's mutation of the graph is kept. -/
def get_stats (nodes : Nodes) : Except DAGError Stats × Nodes :=
  let total := nodes.length
  let ex := (nodes.filter (fun p => p.2.executed)).length
  let pending := total - ex
  match get_execution_order nodes with
  | (.ok groups, ns') =>
    (.ok { total_suites := total, executed := ex, pending := pending,
           parallel_groups := groups.length }, ns')
  | (.error e, ns') => (.error e, ns')

/-! ## Association-list lemmas -/

theorem lookupNode_isSome_iff (ns : Nodes) (x : String) :
    (lookupNode ns x).isSome = true ↔ x ∈ ns.map Prod.fst := by
  induction ns with
  | nil => simp [lookupNode]
  | cons p rest ih =>
    by_cases h : p.1 = x
    · simp [lookupNode, List.find?_cons, h]
    · simp only [lookupNode, List.find?_cons] at ih ⊢
      simp [h, ih, Ne.symm h]

theorem lookupNode_eq_none_iff (ns : Nodes) (x : String) :
    lookupNode ns x = none ↔ x ∉ ns.map Prod.fst := by
  rw [← lookupNode_isSome_iff]
  cases h : lookupNode ns x <;> simp [h]

theorem setNode_keys (ns : Nodes) (n : String) (f : DAGNode → DAGNode) :
    (setNode ns n f).map Prod.fst = ns.map Prod.fst := by
  induction ns with
  | nil => rfl
  | cons p rest ih =>
    by_cases h : p.1 = n <;> simp [setNode, h] at ih ⊢ <;> exact ih

theorem lookupNode_nil (x : String) : lookupNode ([] : Nodes) x = none := rfl

theorem lookupNode_cons (p : String × DAGNode) (rest : Nodes) (x : String) :
    lookupNode (p :: rest) x = if p.1 = x then some p.2 else lookupNode rest x := by
  simp only [lookupNode, List.find?_cons]
  by_cases h : p.1 = x <;> simp [h]

theorem setNode_cons (p : String × DAGNode) (rest : Nodes) (n : String)
    (f : DAGNode → DAGNode) :
    setNode (p :: rest) n f =
      (if p.1 = n then (p.1, f p.2) else p) :: setNode rest n f := rfl

theorem lookupNode_setNode (ns : Nodes) (n : String) (f : DAGNode → DAGNode)
    (x : String) :
    lookupNode (setNode ns n f) x =
      if x = n then (lookupNode ns n).map f else lookupNode ns x := by
  induction ns with
  | nil => by_cases h : x = n <;> simp [setNode, lookupNode_nil, h]
  | cons p rest ih =>
    rw [setNode_cons, lookupNode_cons, lookupNode_cons]
    by_cases hpn : p.1 = n <;> by_cases hpx : p.1 = x
    · have hxn : x = n := hpx ▸ hpn
      simp [hpn, hpx, hxn, lookupNode_cons]
    · have hxn : ¬ x = n := fun h => hpx (h ▸ hpn)
      have hnx : ¬ n = x := fun h => hxn h.symm
      simp [hpn, hpx, hxn, hnx, ih, lookupNode_cons]
    · have hxn : ¬ x = n := fun h => hpn ((h ▸ hpx : p.1 = n))
      rw [if_neg hpn, lookupNode_cons]
      simp [hpx, hxn]
    · by_cases hxn : x = n
      · subst hxn
        rw [if_neg hpn, lookupNode_cons]
        simp [hpx, ih]
      · rw [if_neg hpn, lookupNode_cons]
        simp [hpx, hxn, ih]

theorem lookupNode_append (l1 l2 : Nodes) (x : String) :
    lookupNode (l1 ++ l2) x = (lookupNode l1 x).or (lookupNode l2 x) := by
  unfold lookupNode
  rw [List.find?_append]
  cases List.find? (fun p => decide (p.1 = x)) l1 <;> simp

theorem lookupNode_replace_ne (ns : Nodes) (k : String) (v : DAGNode)
    (x : String) (hxk : x ≠ k) :
    lookupNode (ns.map (fun p => if p.1 = k then (p.1, v) else p)) x =
      lookupNode ns x := by
  induction ns with
  | nil => rfl
  | cons p rest ih =>
    by_cases hpk : p.1 = k
    · have hpx : ¬ p.1 = x := fun h => hxk ((h ▸ hpk : x = k))
      have hkx : ¬ k = x := fun h => hxk h.symm
      simp [lookupNode_cons, hpk, hpx, hkx, ih]
    · by_cases hpx : p.1 = x <;> simp [lookupNode_cons, hpk, hpx, hxk, ih]

theorem lookupNode_replace_eq (ns : Nodes) (k : String) (v : DAGNode)
    (hk : (lookupNode ns k).isSome) :
    lookupNode (ns.map (fun p => if p.1 = k then (p.1, v) else p)) k =
      some v := by
  induction ns with
  | nil => simp [lookupNode] at hk
  | cons p rest ih =>
    by_cases hpk : p.1 = k
    · simp [lookupNode_cons, hpk]
    · rw [lookupNode_cons, if_neg hpk] at hk
      simp [lookupNode_cons, hpk, ih hk]

theorem lookupNode_dictInsert (ns : Nodes) (k : String) (v : DAGNode)
    (x : String) :
    lookupNode (dictInsert ns k v) x =
      if x = k then some v else lookupNode ns x := by
  unfold dictInsert
  by_cases hk : (lookupNode ns k).isSome
  · rw [if_pos hk]
    by_cases hxk : x = k
    · subst hxk
      rw [if_pos rfl, lookupNode_replace_eq ns x v hk]
    · rw [if_neg hxk, lookupNode_replace_ne ns k v x hxk]
  · rw [if_neg hk, lookupNode_append]
    have hkn : lookupNode ns k = none := by
      cases h : lookupNode ns k <;> simp [h] at hk ⊢
    by_cases hxk : x = k
    · subst hxk
      simp [hkn, lookupNode_cons]
    · have hkx : ¬ k = x := fun h => hxk h.symm
      cases h : lookupNode ns x <;>
        simp [h, lookupNode_cons, hxk, hkx, lookupNode_nil]

theorem dictInsert_keys (ns : Nodes) (k : String) (v : DAGNode) :
    (dictInsert ns k v).map Prod.fst =
      if (lookupNode ns k).isSome then ns.map Prod.fst
      else ns.map Prod.fst ++ [k] := by
  unfold dictInsert
  by_cases hk : (lookupNode ns k).isSome
  · rw [if_pos hk, if_pos hk, List.map_map]
    apply List.map_congr_left
    intro p _
    by_cases hpk : p.1 = k <;> simp [hpk]
  · rw [if_neg hk, if_neg hk]
    simp

theorem dictInsert_keys_nodup (ns : Nodes) (k : String) (v : DAGNode)
    (h : (ns.map Prod.fst).Nodup) :
    ((dictInsert ns k v).map Prod.fst).Nodup := by
  rw [dictInsert_keys]
  by_cases hk : (lookupNode ns k).isSome
  · rw [if_pos hk]; exact h
  · rw [if_neg hk]
    have hkn : k ∉ ns.map Prod.fst := by
      rw [← lookupNode_isSome_iff]
      simpa using hk
    rw [List.nodup_append]
    refine ⟨h, List.nodup_singleton k, ?_⟩
    intro a ha hb
    rw [List.mem_singleton] at hb
    exact hkn (hb ▸ ha)

theorem createNodes_keys_nodup (suites : List TestSuite) (ns : Nodes)
    (h : (ns.map Prod.fst).Nodup) :
    ((createNodes suites ns).map Prod.fst).Nodup := by
  induction suites generalizing ns with
  | nil => exact h
  | cons s rest ih => exact ih _ (dictInsert_keys_nodup _ _ _ h)

/-- Last duplicate wins: the node stored for `x` after the first `_build`
loop comes from the *last* descriptor named `x` (none of the per-suite
state other than the descriptor itself survives). -/
theorem lookupNode_createNodes (suites : List TestSuite) (ns : Nodes)
    (x : String) :
    lookupNode (createNodes suites ns) x =
      ((suites.reverse.find? (fun s => s.name = x)).map mkNode).or
        (lookupNode ns x) := by
  induction suites generalizing ns with
  | nil => simp [createNodes]
  | cons s rest ih =>
    rw [createNodes, ih, List.reverse_cons, List.find?_append]
    rw [lookupNode_dictInsert]
    by_cases hs : s.name = x
    · cases h : rest.reverse.find? (fun s => decide (s.name = x)) <;>
        simp [h, hs, Option.or_assoc]
    · have hxs : ¬ x = s.name := fun h => hs h.symm
      cases h : rest.reverse.find? (fun s => decide (s.name = x)) <;>
        simp [h, hs, hxs, Option.or_assoc]

/-! ## Edge insertion lemmas -/

theorem mem_insertIfNew (l : List String) (a x : String) :
    x ∈ insertIfNew l a ↔ x ∈ l ∨ x = a := by
  unfold insertIfNew
  by_cases h : a ∈ l
  · simp only [if_pos h]
    constructor
    · exact Or.inl
    · rintro (hx | rfl)
      · exact hx
      · exact h
  · simp [if_neg h]

theorem insertIfNew_nodup (l : List String) (a : String) (h : l.Nodup) :
    (insertIfNew l a).Nodup := by
  unfold insertIfNew
  by_cases ha : a ∈ l
  · simpa [ha]
  · simp only [if_neg ha]
    rw [List.nodup_append]
    refine ⟨h, List.nodup_singleton a, ?_⟩
    intro x hx hxa
    rw [List.mem_singleton] at hxa
    exact ha (hxa ▸ hx)

theorem setNode_isNode (ns : Nodes) (n : String) (f : DAGNode → DAGNode)
    (x : String) : isNode (setNode ns n f) x = isNode ns x := by
  unfold isNode
  rw [lookupNode_setNode]
  by_cases hxn : x = n
  · subst hxn
    cases h : lookupNode ns x <;> simp [h]
  · rw [if_neg hxn]

theorem addEdge_isNode (ns : Nodes) (name dep x : String) :
    isNode (addEdge ns name dep) x = isNode ns x := by
  unfold addEdge
  rw [setNode_isNode, setNode_isNode]

theorem addEdge_keys (ns : Nodes) (name dep : String) :
    (addEdge ns name dep).map Prod.fst = ns.map Prod.fst := by
  unfold addEdge
  rw [setNode_keys, setNode_keys]

theorem lookupNode_addEdge (ns : Nodes) (name dep x : String) :
    lookupNode (addEdge ns name dep) x =
      if x = dep then
        ((if dep = name then (lookupNode ns name).map (addDepFn dep)
          else lookupNode ns dep).map (addDepdFn name))
      else if x = name then (lookupNode ns name).map (addDepFn dep)
      else lookupNode ns x := by
  unfold addEdge
  rw [lookupNode_setNode]
  by_cases hxd : x = dep
  · rw [if_pos hxd, if_pos hxd, lookupNode_setNode]
  · rw [if_neg hxd, if_neg hxd, lookupNode_setNode]

theorem depsOf_addEdge (ns : Nodes) (name dep : String)
    (hname : isNode ns name = true) (x : String) :
    depsOf (addEdge ns name dep) x =
      if x = name then insertIfNew (depsOf ns name) dep else depsOf ns x := by
  unfold isNode at hname
  obtain ⟨v, hv⟩ := Option.isSome_iff_exists.mp hname
  unfold depsOf
  rw [lookupNode_addEdge]
  by_cases hxd : x = dep
  · subst hxd
    by_cases hdn : x = name
    · subst hdn
      simp [hv, if_pos rfl, addDepFn, addDepdFn]
    · rw [if_pos rfl, if_neg hdn, if_neg hdn]
      cases h : lookupNode ns x <;> simp [h, addDepdFn]
  · rw [if_neg hxd]
    by_cases hxn : x = name
    · subst hxn
      simp [hv, addDepFn]
    · rw [if_neg hxn, if_neg hxn]

theorem depdsOf_addEdge (ns : Nodes) (name dep : String)
    (hdep : isNode ns dep = true) (x : String) :
    depdsOf (addEdge ns name dep) x =
      if x = dep then insertIfNew (depdsOf ns dep) name else depdsOf ns x := by
  unfold isNode at hdep
  obtain ⟨v, hv⟩ := Option.isSome_iff_exists.mp hdep
  unfold depdsOf
  rw [lookupNode_addEdge]
  by_cases hxd : x = dep
  · subst hxd
    rw [if_pos rfl, if_pos rfl]
    by_cases hdn : x = name
    · subst hdn
      simp [hv, addDepFn, addDepdFn]
    · rw [if_neg hdn]
      simp [hv, addDepdFn]
  · rw [if_neg hxd, if_neg hxd]
    by_cases hxn : x = name
    · subst hxn
      cases h : lookupNode ns x <;> simp [h, addDepFn]
    · rw [if_neg hxn]

theorem executedOf_addEdge (ns : Nodes) (name dep x : String) :
    executedOf (addEdge ns name dep) x = executedOf ns x := by
  unfold executedOf
  rw [lookupNode_addEdge]
  by_cases hxd : x = dep
  · subst hxd
    by_cases hdn : x = name
    · subst hdn
      rw [if_pos rfl, if_pos rfl]
      cases h : lookupNode ns x <;> simp [h, addDepFn, addDepdFn]
    · rw [if_pos rfl, if_neg hdn]
      cases h : lookupNode ns x <;> simp [h, addDepdFn]
  · rw [if_neg hxd]
    by_cases hxn : x = name
    · subst hxn
      rw [if_pos rfl]
      cases h : lookupNode ns x <;> simp [h, addDepFn]
    · rw [if_neg hxn]

theorem statusOf_addEdge (ns : Nodes) (name dep x : String) :
    statusOf (addEdge ns name dep) x = statusOf ns x := by
  unfold statusOf
  rw [lookupNode_addEdge]
  by_cases hxd : x = dep
  · subst hxd
    by_cases hdn : x = name
    · subst hdn
      rw [if_pos rfl, if_pos rfl]
      cases h : lookupNode ns x <;> simp [h, addDepFn, addDepdFn]
    · rw [if_pos rfl, if_neg hdn]
      cases h : lookupNode ns x <;> simp [h, addDepdFn]
  · rw [if_neg hxd]
    by_cases hxn : x = name
    · subst hxn
      rw [if_pos rfl]
      cases h : lookupNode ns x <;> simp [h, addDepFn]
    · rw [if_neg hxn]

/-! ## Well-formedness of built graphs -/

/-- Structural invariants of the node map established by `_build`. -/
structure WFdag (ns : Nodes) : Prop where
  keysNodup : (ns.map Prod.fst).Nodup
  depsNodup : ∀ x, (depsOf ns x).Nodup
  depdsNodup : ∀ x, (depdsOf ns x).Nodup
  depsClosed : ∀ x d, d ∈ depsOf ns x → isNode ns d = true
  depdsClosed : ∀ x d, d ∈ depdsOf ns x → isNode ns d = true
  edgeInv : ∀ a b, b ∈ depsOf ns a ↔ a ∈ depdsOf ns b

/-- Flags and statuses still pristine (no suite executed yet). -/
def FreshFlags (ns : Nodes) : Prop :=
  ∀ x, executedOf ns x = false ∧ statusOf ns x = none

theorem createNodes_empty_fields (suites : List TestSuite) (x : String) :
    depsOf (createNodes suites []) x = [] ∧
    depdsOf (createNodes suites []) x = [] ∧
    executedOf (createNodes suites []) x = false ∧
    statusOf (createNodes suites []) x = none := by
  have h := lookupNode_createNodes suites [] x
  rw [lookupNode_nil] at h
  unfold depsOf depdsOf executedOf statusOf
  cases hf : suites.reverse.find? (fun s => s.name = x) with
  | none => rw [h, hf]; simp
  | some s => rw [h, hf]; simp [mkNode]

theorem createNodes_wf (suites : List TestSuite) :
    WFdag (createNodes suites []) := by
  refine ⟨createNodes_keys_nodup suites [] List.nodup_nil, ?_, ?_, ?_, ?_, ?_⟩
  · intro x
    rw [(createNodes_empty_fields suites x).1]
    exact List.nodup_nil
  · intro x
    rw [(createNodes_empty_fields suites x).2.1]
    exact List.nodup_nil
  · intro x d hd
    rw [(createNodes_empty_fields suites x).1] at hd
    cases hd
  · intro x d hd
    rw [(createNodes_empty_fields suites x).2.1] at hd
    cases hd
  · intro a b
    rw [(createNodes_empty_fields suites a).1,
        (createNodes_empty_fields suites b).2.1]
    simp

theorem createNodes_fresh (suites : List TestSuite) :
    FreshFlags (createNodes suites []) := by
  intro x
  exact ⟨(createNodes_empty_fields suites x).2.2.1,
         (createNodes_empty_fields suites x).2.2.2⟩

theorem addEdge_wf (ns : Nodes) (name dep : String)
    (hname : isNode ns name = true) (hdep : isNode ns dep = true)
    (w : WFdag ns) : WFdag (addEdge ns name dep) := by
  refine ⟨?_, ?_, ?_, ?_, ?_, ?_⟩
  · rw [addEdge_keys]; exact w.keysNodup
  · intro x
    rw [depsOf_addEdge ns name dep hname x]
    by_cases hx : x = name
    · rw [if_pos hx]; exact insertIfNew_nodup _ _ (w.depsNodup name)
    · rw [if_neg hx]; exact w.depsNodup x
  · intro x
    rw [depdsOf_addEdge ns name dep hdep x]
    by_cases hx : x = dep
    · rw [if_pos hx]; exact insertIfNew_nodup _ _ (w.depdsNodup dep)
    · rw [if_neg hx]; exact w.depdsNodup x
  · intro x d hd
    rw [addEdge_isNode]
    rw [depsOf_addEdge ns name dep hname x] at hd
    by_cases hx : x = name
    · rw [if_pos hx, mem_insertIfNew] at hd
      rcases hd with hd | rfl
      · exact w.depsClosed name d hd
      · exact hdep
    · rw [if_neg hx] at hd
      exact w.depsClosed x d hd
  · intro x d hd
    rw [addEdge_isNode]
    rw [depdsOf_addEdge ns name dep hdep x] at hd
    by_cases hx : x = dep
    · rw [if_pos hx, mem_insertIfNew] at hd
      rcases hd with hd | rfl
      · exact w.depdsClosed dep d hd
      · exact hname
    · rw [if_neg hx] at hd
      exact w.depdsClosed x d hd
  · intro a b
    rw [depsOf_addEdge ns name dep hname a, depdsOf_addEdge ns name dep hdep b]
    by_cases ha : a = name <;> by_cases hb : b = dep
    · rw [if_pos ha, if_pos hb, mem_insertIfNew, mem_insertIfNew]
      constructor
      · intro _; exact Or.inr ha
      · intro _; exact Or.inr hb
    · rw [if_pos ha, if_neg hb, mem_insertIfNew]
      constructor
      · rintro (h | h)
        · rw [ha]; exact (w.edgeInv name b).mp h
        · exact absurd h hb
      · intro h
        rw [ha] at h
        exact Or.inl ((w.edgeInv name b).mpr h)
    · rw [if_neg ha, if_pos hb, mem_insertIfNew]
      constructor
      · intro h
        rw [hb] at h
        exact Or.inl ((w.edgeInv a dep).mp h)
      · rintro (h | h)
        · rw [hb]; exact (w.edgeInv a dep).mpr h
        · exact absurd h ha
    · rw [if_neg ha, if_neg hb]
      exact w.edgeInv a b

theorem addEdge_fresh (ns : Nodes) (name dep : String) (h : FreshFlags ns) :
    FreshFlags (addEdge ns name dep) := by
  intro x
  rw [executedOf_addEdge, statusOf_addEdge]
  exact h x

theorem addSuiteDeps_wf (name : String) (deps : List String) (ns ns' : Nodes)
    (hok : addSuiteDeps name deps ns = .ok ns')
    (hname : isNode ns name = true) (w : WFdag ns) (hf : FreshFlags ns) :
    WFdag ns' ∧ FreshFlags ns' ∧ (∀ x, isNode ns' x = isNode ns x) := by
  induction deps generalizing ns with
  | nil =>
    cases hok
    exact ⟨w, hf, fun _ => rfl⟩
  | cons dep rest ih =>
    rw [addSuiteDeps] at hok
    by_cases hdep : (lookupNode ns dep).isSome
    · rw [if_pos hdep] at hok
      have hdep' : isNode ns dep = true := hdep
      have hname' : isNode (addEdge ns name dep) name = true := by
        rw [addEdge_isNode]; exact hname
      obtain ⟨w', hf', hiso⟩ := ih (addEdge ns name dep) hok hname'
        (addEdge_wf ns name dep hname hdep' w)
        (addEdge_fresh ns name dep hf)
      refine ⟨w', hf', fun x => ?_⟩
      rw [hiso x, addEdge_isNode]
    · rw [if_neg hdep] at hok
      cases hok

theorem addAllEdges_wf (suites : List TestSuite) (ns ns' : Nodes)
    (hok : addAllEdges suites ns = .ok ns')
    (hnames : ∀ s ∈ suites, isNode ns s.name = true)
    (w : WFdag ns) (hf : FreshFlags ns) :
    WFdag ns' ∧ FreshFlags ns' ∧ (∀ x, isNode ns' x = isNode ns x) := by
  induction suites generalizing ns with
  | nil =>
    cases hok
    exact ⟨w, hf, fun _ => rfl⟩
  | cons s rest ih =>
    rw [addAllEdges] at hok
    cases hsd : addSuiteDeps s.name s.dependencies ns with
    | error e => rw [hsd] at hok; cases hok
    | ok ns1 =>
      rw [hsd] at hok
      obtain ⟨w1, hf1, hiso1⟩ := addSuiteDeps_wf s.name s.dependencies ns ns1
        hsd (hnames s (List.mem_cons_self s rest)) w hf
      obtain ⟨w', hf', hiso'⟩ := ih ns1 hok
        (fun t ht => by rw [hiso1]; exact hnames t (List.mem_cons_of_mem s ht))
        w1 hf1
      exact ⟨w', hf', fun x => by rw [hiso' x, hiso1 x]⟩

/-- The suite names all become nodes in the first `_build` loop. -/
theorem createNodes_has_suites (suites : List TestSuite) (s : TestSuite)
    (hs : s ∈ suites) : isNode (createNodes suites []) s.name = true := by
  unfold isNode
  rw [lookupNode_createNodes, lookupNode_nil]
  have hsome : (suites.reverse.find? (fun u => u.name = s.name)).isSome := by
    rw [List.find?_isSome]
    exact ⟨s, List.mem_reverse.mpr hs, by simp⟩
  obtain ⟨t, ht⟩ := Option.isSome_iff_exists.mp hsome
  rw [ht]
  simp

/-- A successful `_build` yields a well-formed, pristine graph. -/
theorem build_wf (suites : List TestSuite) (ns : Nodes)
    (h : _build suites = .ok ns) : WFdag ns ∧ FreshFlags ns := by
  unfold _build at h
  cases hadd : addAllEdges suites (createNodes suites []) with
  | error e => rw [hadd] at h; cases h
  | ok ns1 =>
    rw [hadd] at h
    dsimp only at h
    cases hdet : detect_cycles ns1 with
    | none => rw [hdet] at h; cases h
    | some r =>
      cases r with
      | error e => rw [hdet] at h; cases h
      | ok u =>
        rw [hdet] at h
        cases h
        obtain ⟨w, hf, _⟩ := addAllEdges_wf suites (createNodes suites []) ns
          hadd (fun s hs => createNodes_has_suites suites s hs)
          (createNodes_wf suites) (createNodes_fresh suites)
        exact ⟨w, hf⟩

/-! ## Graph-theoretic predicates -/

/-- `edge ns a b`: suite `a` depends on suite `b`. -/
def edge (ns : Nodes) (a b : String) : Prop := b ∈ depsOf ns a

instance (ns : Nodes) (a b : String) : Decidable (edge ns a b) :=
  inferInstanceAs (Decidable (b ∈ depsOf ns a))

/-- A closed dependency walk: at least two entries, consecutive entries
are graph edges, and the first and last entries coincide. -/
def ClosedWalk (ns : Nodes) (p : List String) : Prop :=
  2 ≤ p.length ∧ p.head? = p.getLast? ∧ p.Chain' (edge ns)

/-- The dependency relation has a cycle. -/
def HasCycle (ns : Nodes) : Prop := ∃ p, ClosedWalk ns p

/-! ## DFS cycle-detector lemmas -/

/-- How one `dfs`/`dfsDeps` call may move the colors: each node is either
untouched or was white and ended black. -/
def ColorStep (c c' : ColorMap) : Prop :=
  ∀ x, c' x = c x ∨ (c x = Color.white ∧ c' x = Color.black)

theorem ColorStep.trans {c c1 c2 : ColorMap}
    (h1 : ColorStep c c1) (h2 : ColorStep c1 c2) : ColorStep c c2 := by
  intro x
  rcases h2 x with h | ⟨hw, hb⟩
  · rcases h1 x with h' | ⟨hw', hb'⟩
    · exact Or.inl (h.trans h')
    · exact Or.inr ⟨hw', h ▸ hb'⟩
  · rcases h1 x with h' | ⟨hw', hb'⟩
    · exact Or.inr ⟨h' ▸ hw, hb⟩
    · rw [hb'] at hw; cases hw

theorem ColorStep.gray_iff {c c' : ColorMap} (h : ColorStep c c')
    (x : String) : c' x = Color.gray ↔ c x = Color.gray := by
  constructor
  · intro hg
    rcases h x with h' | ⟨_, hb⟩
    · rw [← h']; exact hg
    · rw [hb] at hg; cases hg
  · intro hg
    rcases h x with h' | ⟨hw, _⟩
    · rw [h']; exact hg
    · rw [hw] at hg; cases hg

theorem ColorStep.black_mono {c c' : ColorMap} (h : ColorStep c c')
    (x : String) (hb : c x = Color.black) : c' x = Color.black := by
  rcases h x with h' | ⟨hw, _⟩
  · rw [h']; exact hb
  · rw [hw] at hb; cases hb

/-- A ranking certificate: black nodes are closed under dependencies and
strictly decrease the rank along each dependency edge. -/
def GoodRank (ns : Nodes) (c : ColorMap) (r : String → Nat) : Prop :=
  ∀ x, c x = Color.black → ∀ d ∈ depsOf ns x, c d = Color.black ∧ r d < r x

def Good (ns : Nodes) (c : ColorMap) : Prop := ∃ r, GoodRank ns c r

def maxRankOver (r : String → Nat) (l : List String) : Nat :=
  l.foldr (fun d m => max (r d) m) 0

theorem le_maxRankOver (r : String → Nat) (l : List String) (d : String)
    (hd : d ∈ l) : r d ≤ maxRankOver r l := by
  induction l with
  | nil => cases hd
  | cons a rest ih =>
    rcases List.mem_cons.mp hd with rfl | hd'
    · exact le_max_left _ _
    · exact le_trans (ih hd') (le_max_right _ _)

theorem good_of_setGray (ns : Nodes) (c : ColorMap) (name : String)
    (hw : c name = Color.white) (hg : Good ns c) :
    Good ns (setC c name Color.gray) := by
  obtain ⟨r, hr⟩ := hg
  refine ⟨r, fun x hx d hd => ?_⟩
  by_cases hxn : x = name
  · rw [setC, if_pos hxn] at hx; cases hx
  · rw [setC, if_neg hxn] at hx
    obtain ⟨hdb, hdr⟩ := hr x hx d hd
    have hdn : ¬ d = name := by
      intro h
      rw [h, hw] at hdb
      cases hdb
    rw [setC, if_neg hdn]
    exact ⟨hdb, hdr⟩

/-- Combined ok-case postcondition of `dfs` and `dfsDeps`: colors move
monotonically, the visited node (resp. the listed dependencies) end
black, and the ranking certificate is preserved. -/
theorem dfs_ok_spec (nodes : Nodes) (fuel : Nat) :
    (∀ name c path c', c name = Color.white →
      dfs nodes fuel name c path = some (.ok c') →
      ColorStep c c' ∧ c' name = Color.black ∧ (Good nodes c → Good nodes c')) ∧
    (∀ ds c path c', dfsDeps nodes fuel ds c path = some (.ok c') →
      ColorStep c c' ∧ (∀ d ∈ ds, c' d = Color.black) ∧
      (Good nodes c → Good nodes c')) := by
  induction fuel with
  | zero =>
    constructor
    · intro name c path c' _ h
      simp [dfs] at h
    · intro ds c path c' h
      induction ds generalizing c with
      | nil =>
        simp only [dfsDeps] at h
        cases h
        exact ⟨fun x => Or.inl rfl, fun d hd => absurd hd (List.not_mem_nil d),
          fun g => g⟩
      | cons d rest ih =>
        simp only [dfsDeps] at h
        by_cases hg : c d = Color.gray
        · rw [if_pos hg] at h; cases h
        · rw [if_neg hg] at h
          by_cases hw : c d = Color.white
          · rw [if_pos hw] at h
            simp [dfs] at h
          · rw [if_neg hw] at h
            have hb : c d = Color.black := by
              cases hcd : c d <;> simp [hcd] at hg hw ⊢
            obtain ⟨hstep, hblack, hgood⟩ := ih c h
            refine ⟨hstep, fun e he => ?_, hgood⟩
            rcases List.mem_cons.mp he with rfl | he'
            · exact hstep.black_mono e hb
            · exact hblack e he'
  | succ fuel IH =>
    have hN : ∀ name c path c', c name = Color.white →
        dfs nodes (fuel + 1) name c path = some (.ok c') →
        ColorStep c c' ∧ c' name = Color.black ∧
        (Good nodes c → Good nodes c') := by
      intro name c path c' hwname h
      simp only [dfs] at h
      cases hdd : dfsDeps nodes fuel (depsOf nodes name)
          (setC c name Color.gray) (path ++ [name]) with
      | none => rw [hdd] at h; cases h
      | some r1 =>
        rw [hdd] at h
        cases r1 with
        | error e => simp [Except.map] at h
        | ok c2 =>
        simp only [Option.map_some', Except.map, Option.some.injEq,
          Except.ok.injEq] at h
        have hc' : c' = setC c2 name Color.black := h.symm
        obtain ⟨hstep2, hdsblack, hgood2⟩ := IH.2 (depsOf nodes name)
          (setC c name Color.gray) (path ++ [name]) c2 hdd
        have hc2name : c2 name = Color.gray := by
          rw [hstep2.gray_iff name, setC, if_pos rfl]
        constructor
        · -- ColorStep c c'
          intro x
          by_cases hxn : x = name
          · subst hxn
            exact Or.inr ⟨hwname, by rw [hc', setC, if_pos rfl]⟩
          · rcases hstep2 x with h2 | ⟨h2w, h2b⟩
            · rw [setC, if_neg hxn] at h2
              exact Or.inl (by rw [hc', setC, if_neg hxn, h2])
            · rw [setC, if_neg hxn] at h2w
              exact Or.inr ⟨h2w, by rw [hc', setC, if_neg hxn, h2b]⟩
        constructor
        · rw [hc', setC, if_pos rfl]
        · -- Good preservation
          intro hgc
          have hg1 : Good nodes (setC c name Color.gray) :=
            good_of_setGray nodes c name hwname hgc
          obtain ⟨r2, hr2⟩ := hgood2 hg1
          refine ⟨fun x => if x = name
            then maxRankOver r2 (depsOf nodes name) + 1 else r2 x,
            fun x hx d hd => ?_⟩
          rw [hc'] at hx
          by_cases hxn : x = name
          · -- x is the freshly blackened node
            have hdb : c2 d = Color.black := hdsblack d (hxn ▸ hd)
            have hdn : ¬ d = name := by
              intro hdd
              rw [hdd, hc2name] at hdb
              cases hdb
            constructor
            · rw [hc', setC, if_neg hdn]; exact hdb
            · simp only [if_neg hdn, if_pos hxn]
              exact Nat.lt_succ_of_le
                (le_maxRankOver r2 (depsOf nodes name) d (hxn ▸ hd))
          · rw [setC, if_neg hxn] at hx
            obtain ⟨hdb, hdr⟩ := hr2 x hx d hd
            have hdn : ¬ d = name := by
              intro hdd
              rw [hdd, hc2name] at hdb
              cases hdb
            constructor
            · rw [hc', setC, if_neg hdn]; exact hdb
            · simp only [if_neg hdn, if_neg hxn]; exact hdr
    refine ⟨hN, ?_⟩
    intro ds c path c' h
    induction ds generalizing c with
    | nil =>
      simp only [dfsDeps] at h
      cases h
      exact ⟨fun x => Or.inl rfl, fun d hd => absurd hd (List.not_mem_nil d),
        fun g => g⟩
    | cons d rest ih =>
      simp only [dfsDeps] at h
      by_cases hg : c d = Color.gray
      · rw [if_pos hg] at h; cases h
      · rw [if_neg hg] at h
        by_cases hw : c d = Color.white
        · rw [if_pos hw] at h
          cases hdfs : dfs nodes (fuel + 1) d c path with
          | none => rw [hdfs] at h; cases h
          | some r1 =>
            rw [hdfs] at h
            cases r1 with
            | error e => cases h
            | ok c1 =>
              obtain ⟨hstep1, hd1, hgood1⟩ := hN d c path c1 hw hdfs
              obtain ⟨hstep2, hblack2, hgood2⟩ := ih c1 h
              refine ⟨hstep1.trans hstep2, fun e he => ?_,
                fun g => hgood2 (hgood1 g)⟩
              rcases List.mem_cons.mp he with rfl | he'
              · exact hstep2.black_mono e hd1
              · exact hblack2 e he'
        · rw [if_neg hw] at h
          have hb : c d = Color.black := by
            cases hcd : c d <;> simp [hcd] at hg hw ⊢
          obtain ⟨hstep, hblack, hgood⟩ := ih c h
          refine ⟨hstep, fun e he => ?_, hgood⟩
          rcases List.mem_cons.mp he with rfl | he'
          · exact hstep.black_mono e hb
          · exact hblack e he'

/-- Number of still-white names among `names`. -/
def whiteCount (names : List String) (c : ColorMap) : Nat :=
  (names.filter (fun n => c n = Color.white)).length

theorem whiteCount_mono (names : List String) {c c' : ColorMap}
    (h : ColorStep c c') : whiteCount names c' ≤ whiteCount names c := by
  unfold whiteCount
  apply List.Sublist.length_le
  apply List.monotone_filter_right
  intro a ha
  rcases h a with h' | ⟨hw, hb⟩
  · rw [decide_eq_true_iff] at ha
    rw [← h']
    simpa using ha
  · rw [decide_eq_true_iff] at ha
    rw [hb] at ha
    cases ha

theorem whiteCount_pos (names : List String) (c : ColorMap) (name : String)
    (hmem : name ∈ names) (hw : c name = Color.white) :
    1 ≤ whiteCount names c := by
  unfold whiteCount
  have : name ∈ names.filter (fun n => c n = Color.white) :=
    List.mem_filter.mpr ⟨hmem, by simpa using hw⟩
  exact List.length_pos.mpr (List.ne_nil_of_mem this)

theorem whiteCount_setGray (names : List String) (c : ColorMap) (name : String)
    (hnd : names.Nodup) (hmem : name ∈ names) (hw : c name = Color.white) :
    whiteCount names (setC c name Color.gray) + 1 = whiteCount names c := by
  induction names with
  | nil => cases hmem
  | cons a rest ih =>
    have hnd' : rest.Nodup := (List.nodup_cons.mp hnd).2
    rcases List.mem_cons.mp hmem with rfl | hmem'
    · have hnin : name ∉ rest := (List.nodup_cons.mp hnd).1
      have heq : rest.filter (fun n => setC c name Color.gray n = Color.white)
          = rest.filter (fun n => c n = Color.white) := by
        apply List.filter_congr
        intro x hx
        have hxn : ¬ x = name := fun h => hnin (h ▸ hx)
        simp [setC, hxn]
      unfold whiteCount
      rw [List.filter_cons, List.filter_cons, heq]
      simp [setC, hw]
    · have han : ¬ a = name := by
        rintro rfl
        exact (List.nodup_cons.mp hnd).1 hmem'
      have hrec := ih hnd' hmem'
      unfold whiteCount at hrec ⊢
      rw [List.filter_cons, List.filter_cons]
      by_cases ha : c a = Color.white
      · have ha' : setC c name Color.gray a = Color.white := by
          rw [setC, if_neg han]; exact ha
        simp [ha, ha']
        omega
      · have ha' : ¬ setC c name Color.gray a = Color.white := by
          rw [setC, if_neg han]; exact ha
        simp only [decide_eq_true_eq, ha, ha', if_neg, decide_eq_false ha,
          decide_eq_false ha']
        exact hrec

/-- With fuel at least the number of white nodes, `dfs` / `dfsDeps` never
run out (recursion only descends into white nodes, each of which turns
gray first). -/
theorem dfs_fuel_spec (nodes : Nodes)
    (hnd : (nodes.map Prod.fst).Nodup)
    (hcl : ∀ n d, d ∈ depsOf nodes n → d ∈ nodes.map Prod.fst) (fuel : Nat) :
    (∀ name c path, c name = Color.white → name ∈ nodes.map Prod.fst →
      whiteCount (nodes.map Prod.fst) c ≤ fuel →
      (dfs nodes fuel name c path).isSome) ∧
    (∀ ds c path, (∀ d ∈ ds, d ∈ nodes.map Prod.fst) →
      whiteCount (nodes.map Prod.fst) c ≤ fuel →
      (dfsDeps nodes fuel ds c path).isSome) := by
  induction fuel with
  | zero =>
    constructor
    · intro name c path hw hmem hwc
      have := whiteCount_pos (nodes.map Prod.fst) c name hmem hw
      omega
    · intro ds c path hds hwc
      induction ds generalizing c with
      | nil => simp [dfsDeps]
      | cons d rest ih =>
        simp only [dfsDeps]
        by_cases hg : c d = Color.gray
        · simp [hg]
        · rw [if_neg hg]
          by_cases hw : c d = Color.white
          · exfalso
            have := whiteCount_pos (nodes.map Prod.fst) c d
              (hds d (List.mem_cons_self d rest)) hw
            omega
          · rw [if_neg hw]
            exact ih c (fun e he => hds e (List.mem_cons_of_mem d he)) hwc
  | succ fuel IH =>
    have hN : ∀ name c path, c name = Color.white →
        name ∈ nodes.map Prod.fst →
        whiteCount (nodes.map Prod.fst) c ≤ fuel + 1 →
        (dfs nodes (fuel + 1) name c path).isSome := by
      intro name c path hw hmem hwc
      simp only [dfs]
      have hwc1 : whiteCount (nodes.map Prod.fst) (setC c name Color.gray)
          ≤ fuel := by
        have := whiteCount_setGray (nodes.map Prod.fst) c name hnd hmem hw
        omega
      have := IH.2 (depsOf nodes name) (setC c name Color.gray)
        (path ++ [name]) (fun d hd => hcl name d hd) hwc1
      cases h : dfsDeps nodes fuel (depsOf nodes name) (setC c name Color.gray)
          (path ++ [name]) with
      | none => rw [h] at this; cases this
      | some r => simp
    refine ⟨hN, ?_⟩
    intro ds c path hds hwc
    induction ds generalizing c with
    | nil => simp [dfsDeps]
    | cons d rest ih =>
      simp only [dfsDeps]
      by_cases hg : c d = Color.gray
      · simp [hg]
      · rw [if_neg hg]
        by_cases hw : c d = Color.white
        · rw [if_pos (by simpa using hw)]
          have hdfs := hN d c path hw (hds d (List.mem_cons_self d rest)) hwc
          cases h : dfs nodes (fuel + 1) d c path with
          | none => rw [h] at hdfs; cases hdfs
          | some r =>
            cases r with
            | error e => simp
            | ok c1 =>
              obtain ⟨hstep, _, _⟩ :=
                (dfs_ok_spec nodes (fuel + 1)).1 d c path c1 hw h
              have : whiteCount (nodes.map Prod.fst) c1 ≤ fuel + 1 :=
                le_trans (whiteCount_mono (nodes.map Prod.fst) hstep) hwc
              exact ih c1 (fun e he => hds e (List.mem_cons_of_mem d he)) this
        · rw [if_neg hw]
          exact ih c (fun e he => hds e (List.mem_cons_of_mem d he)) hwc

theorem getLast?_drop_of_lt {l : List String} {i : Nat} (h : i < l.length) :
    (l.drop i).getLast? = l.getLast? := by
  have hne : l.drop i ≠ [] := by
    intro hnil
    have := List.length_drop i l
    rw [hnil] at this
    simp at this
    omega
  obtain ⟨t, ht⟩ := Option.isSome_iff_exists.mp (List.getLast?_isSome.mpr hne)
  conv_rhs => rw [← List.take_append_drop i l]
  rw [List.getLast?_append, ht]
  simp

/-- Whenever `dfs` / `dfsDeps` surface an error, it is the
circular-dependency error and its payload is a closed walk of real graph
edges. -/
theorem dfs_err_spec (nodes : Nodes) (fuel : Nat) :
    (∀ name c path e, c name = Color.white →
      (∀ x, c x = Color.gray ↔ x ∈ path) →
      path.Chain' (edge nodes) →
      (∀ t, path.getLast? = some t → edge nodes t name) →
      dfs nodes fuel name c path = some (.error e) →
      ∃ p, e = .circularDependency p ∧ ClosedWalk nodes p) ∧
    (∀ ds c path e,
      (∀ x, c x = Color.gray ↔ x ∈ path) →
      path.Chain' (edge nodes) →
      (∀ d ∈ ds, ∀ t, path.getLast? = some t → edge nodes t d) →
      dfsDeps nodes fuel ds c path = some (.error e) →
      ∃ p, e = .circularDependency p ∧ ClosedWalk nodes p) := by
  induction fuel with
  | zero =>
    constructor
    · intro name c path e _ _ _ _ h
      simp [dfs] at h
    · intro ds c path e hgray hchain hlink h
      induction ds generalizing c with
      | nil => simp [dfsDeps] at h
      | cons d rest ih =>
        simp only [dfsDeps] at h
        by_cases hg : c d = Color.gray
        · rw [if_pos hg] at h
          cases h
          refine ⟨cyclePathOf path d, rfl, ?_⟩
          have hdp : d ∈ path := (hgray d).mp hg
          have hidx : path.indexOf d < path.length :=
            List.indexOf_lt_length.mpr hdp
          have hdropc : path.drop (path.indexOf d) =
              d :: path.drop (path.indexOf d + 1) := by
            rw [List.drop_eq_getElem_cons hidx, List.getElem_indexOf hidx]
          refine ⟨?_, ?_, ?_⟩
          · unfold cyclePathOf
            rw [hdropc]
            simp
          · unfold cyclePathOf
            rw [List.getLast?_concat, hdropc]
            simp
          · unfold cyclePathOf
            rw [List.chain'_append]
            refine ⟨hchain.drop _, List.chain'_singleton d, ?_⟩
            intro x hx y hy
            rw [getLast?_drop_of_lt hidx] at hx
            simp only [List.head?_cons, Option.mem_def, Option.some.injEq] at hy
            subst hy
            exact hlink d (List.mem_cons_self d rest) x hx
        · rw [if_neg hg] at h
          by_cases hw : c d = Color.white
          · rw [if_pos hw] at h
            simp [dfs] at h
          · rw [if_neg hw] at h
            exact ih c hgray
              (fun x hx t ht => hlink x (List.mem_cons_of_mem d hx) t ht) h
  | succ fuel IH =>
    have hN : ∀ name c path e, c name = Color.white →
        (∀ x, c x = Color.gray ↔ x ∈ path) →
        path.Chain' (edge nodes) →
        (∀ t, path.getLast? = some t → edge nodes t name) →
        dfs nodes (fuel + 1) name c path = some (.error e) →
        ∃ p, e = .circularDependency p ∧ ClosedWalk nodes p := by
      intro name c path e hwname hgray hchain hlink h
      simp only [dfs] at h
      cases hdd : dfsDeps nodes fuel (depsOf nodes name)
          (setC c name Color.gray) (path ++ [name]) with
      | none => rw [hdd] at h; cases h
      | some r =>
        rw [hdd] at h
        cases r with
        | ok c2 => simp [Except.map] at h
        | error e' =>
          simp only [Option.map_some', Except.map, Option.some.injEq] at h
          cases h
          apply IH.2 (depsOf nodes name) (setC c name Color.gray)
            (path ++ [name]) e ?_ ?_ ?_ hdd
          · intro x
            rw [List.mem_append, List.mem_singleton]
            by_cases hxn : x = name
            · subst hxn
              rw [setC, if_pos rfl]
              simp
            · rw [setC, if_neg hxn, hgray x]
              simp [hxn]
          · rw [List.chain'_append]
            refine ⟨hchain, List.chain'_singleton name, ?_⟩
            intro x hx y hy
            simp only [List.head?_cons, Option.mem_def, Option.some.injEq] at hy
            subst hy
            exact hlink x hx
          · intro d hd t ht
            rw [List.getLast?_concat] at ht
            cases ht
            exact hd
    refine ⟨hN, ?_⟩
    intro ds c path e hgray hchain hlink h
    induction ds generalizing c with
    | nil => simp [dfsDeps] at h
    | cons d rest ih =>
      simp only [dfsDeps] at h
      by_cases hg : c d = Color.gray
      · rw [if_pos hg] at h
        cases h
        refine ⟨cyclePathOf path d, rfl, ?_⟩
        have hdp : d ∈ path := (hgray d).mp hg
        have hidx : path.indexOf d < path.length :=
          List.indexOf_lt_length.mpr hdp
        have hdropc : path.drop (path.indexOf d) =
            d :: path.drop (path.indexOf d + 1) := by
          rw [List.drop_eq_getElem_cons hidx, List.getElem_indexOf hidx]
        refine ⟨?_, ?_, ?_⟩
        · unfold cyclePathOf
          rw [hdropc]
          simp
        · unfold cyclePathOf
          rw [List.getLast?_concat, hdropc]
          simp
        · unfold cyclePathOf
          rw [List.chain'_append]
          refine ⟨hchain.drop _, List.chain'_singleton d, ?_⟩
          intro x hx y hy
          rw [getLast?_drop_of_lt hidx] at hx
          simp only [List.head?_cons, Option.mem_def, Option.some.injEq] at hy
          subst hy
          exact hlink d (List.mem_cons_self d rest) x hx
      · rw [if_neg hg] at h
        by_cases hw : c d = Color.white
        · rw [if_pos hw] at h
          cases hdfs : dfs nodes (fuel + 1) d c path with
          | none => rw [hdfs] at h; cases h
          | some r =>
            rw [hdfs] at h
            cases r with
            | error e2 =>
              cases h
              exact hN d c path e hw hgray hchain
                (fun t ht => hlink d (List.mem_cons_self d rest) t ht) hdfs
            | ok c1 =>
              obtain ⟨hstep, _, _⟩ :=
                (dfs_ok_spec nodes (fuel + 1)).1 d c path c1 hw hdfs
              apply ih c1 ?_
                (fun x hx t ht => hlink x (List.mem_cons_of_mem d hx) t ht) h
              intro x
              rw [hstep.gray_iff x]
              exact hgray x
        · rw [if_neg hw] at h
          exact ih c hgray
            (fun x hx t ht => hlink x (List.mem_cons_of_mem d hx) t ht) h

/-! ## Detector-level lemmas -/

theorem detectLoop_ok_spec (nodes : Nodes) (fuel : Nat) :
    ∀ rem c, (∀ x, c x ≠ Color.gray) → Good nodes c →
    detectLoop nodes fuel rem c = some (.ok ()) →
    ∃ c', (∀ x, c' x ≠ Color.gray) ∧ Good nodes c' ∧ ColorStep c c' ∧
      ∀ n ∈ rem, c' n = Color.black := by
  intro rem
  induction rem with
  | nil =>
    intro c hng hgood _
    exact ⟨c, hng, hgood, fun x => Or.inl rfl, fun n hn => absurd hn
      (List.not_mem_nil n)⟩
  | cons n rest ih =>
    intro c hng hgood h
    simp only [detectLoop] at h
    by_cases hw : c n = Color.white
    · rw [if_pos hw] at h
      cases hdfs : dfs nodes fuel n c [] with
      | none => rw [hdfs] at h; cases h
      | some r =>
        rw [hdfs] at h
        cases r with
        | error e => cases h
        | ok c1 =>
          obtain ⟨hstep, hnb, hgd⟩ := (dfs_ok_spec nodes fuel).1 n c [] c1 hw hdfs
          have hng1 : ∀ x, c1 x ≠ Color.gray := by
            intro x hx
            exact hng x ((hstep.gray_iff x).mp hx)
          obtain ⟨c', hng', hgood', hstep', hblack'⟩ :=
            ih c1 hng1 (hgd hgood) h
          refine ⟨c', hng', hgood', hstep.trans hstep', fun m hm => ?_⟩
          rcases List.mem_cons.mp hm with rfl | hm'
          · exact hstep'.black_mono m hnb
          · exact hblack' m hm'
    · rw [if_neg hw] at h
      have hb : c n = Color.black := by
        cases hcn : c n <;> simp [hcn] at hw ⊢
        exact absurd hcn (hng n)
      obtain ⟨c', hng', hgood', hstep', hblack'⟩ := ih c hng hgood h
      refine ⟨c', hng', hgood', hstep', fun m hm => ?_⟩
      rcases List.mem_cons.mp hm with rfl | hm'
      · exact hstep'.black_mono m hb
      · exact hblack' m hm'

theorem mem_keys_of_deps (nodes : Nodes) (a b : String)
    (h : edge nodes a b) : a ∈ nodes.map Prod.fst := by
  unfold edge depsOf at h
  rw [← lookupNode_isSome_iff]
  cases hl : lookupNode nodes a with
  | none => rw [hl] at h; simp at h
  | some v => simp

/-- A ranking that strictly decreases along every edge rules out closed
walks. -/
theorem no_closedWalk_of_rank (nodes : Nodes) (r : String → Nat)
    (hr : ∀ a b, edge nodes a b → r b < r a) : ¬ HasCycle nodes := by
  rintro ⟨p, hlen, hhl, hchain⟩
  match p, hlen with
  | a :: b :: t, _ =>
    have hdesc : ∀ l y, l.Chain' (edge nodes) → ∀ hy : l = y :: l.tail,
        ∀ x ∈ l.tail, r x < r y := by
      intro l
      induction l with
      | nil => intro y _ hy; cases hy
      | cons z rest ihl =>
        intro y hch hy x hx
        cases hy
        cases rest with
        | nil => cases hx
        | cons w rest' =>
          rw [List.chain'_cons] at hch
          rcases List.mem_cons.mp hx with rfl | hx'
          · exact hr _ _ hch.1
          · exact lt_trans (ihl w hch.2 rfl x hx') (hr _ _ hch.1)
    have hlast : (a :: b :: t).getLast? = some a := by
      rw [← hhl]; rfl
    have hamem : a ∈ b :: t := by
      have := List.mem_of_getLast?_eq_some hlast
      rcases List.mem_cons.mp this with h0 | h'
      · -- a is the head and also the last; we need it in the tail:
        -- getLast? of a two-or-more list is the getLast? of the tail
        have : (a :: b :: t).getLast? = (b :: t).getLast? := by
          rw [List.getLast?_cons, List.getLast?_cons]
          cases ht : t.getLast? <;> simp [ht]
        rw [this] at hlast
        exact List.mem_of_getLast?_eq_some hlast
      · exact h'
    exact absurd (hdesc (a :: b :: t) a hchain rfl a hamem) (lt_irrefl (r a))

theorem detect_ok_acyclic (nodes : Nodes)
    (h : detect_cycles nodes = some (.ok ())) : ¬ HasCycle nodes := by
  unfold detect_cycles at h
  obtain ⟨c', hng', ⟨r, hr⟩, _, hblack⟩ :=
    detectLoop_ok_spec nodes (nodes.length + 1) (nodes.map Prod.fst)
      (fun _ => Color.white) (fun x h => by cases h)
      ⟨fun _ => 0, fun x hx => by cases hx⟩ h
  apply no_closedWalk_of_rank nodes r
  intro a b hab
  have ha : c' a = Color.black := hblack a (mem_keys_of_deps nodes a b hab)
  exact (hr a ha b hab).2

theorem detectLoop_err_spec (nodes : Nodes) (fuel : Nat) :
    ∀ rem c e, (∀ x, c x ≠ Color.gray) →
    detectLoop nodes fuel rem c = some (.error e) →
    ∃ p, e = .circularDependency p ∧ ClosedWalk nodes p := by
  intro rem
  induction rem with
  | nil => intro c e _ h; simp [detectLoop] at h
  | cons n rest ih =>
    intro c e hng h
    simp only [detectLoop] at h
    by_cases hw : c n = Color.white
    · rw [if_pos hw] at h
      cases hdfs : dfs nodes fuel n c [] with
      | none => rw [hdfs] at h; cases h
      | some r =>
        rw [hdfs] at h
        cases r with
        | error e2 =>
          cases h
          apply (dfs_err_spec nodes fuel).1 n c [] e hw ?_ ?_ ?_ hdfs
          · intro x
            constructor
            · intro hx; exact absurd hx (hng x)
            · intro hx; cases hx
          · exact List.chain'_nil
          · intro t ht; cases ht
        | ok c1 =>
          obtain ⟨hstep, _, _⟩ := (dfs_ok_spec nodes fuel).1 n c [] c1 hw hdfs
          apply ih c1 e ?_ h
          intro x hx
          exact hng x ((hstep.gray_iff x).mp hx)
    · rw [if_neg hw] at h
      exact ih c e hng h

theorem detect_err_walk (nodes : Nodes) (e : DAGError)
    (h : detect_cycles nodes = some (.error e)) :
    ∃ p, e = .circularDependency p ∧ ClosedWalk nodes p := by
  unfold detect_cycles at h
  exact detectLoop_err_spec nodes (nodes.length + 1) (nodes.map Prod.fst)
    (fun _ => Color.white) e (fun x hx => by cases hx) h

theorem detectLoop_total (nodes : Nodes)
    (hnd : (nodes.map Prod.fst).Nodup)
    (hcl : ∀ n d, d ∈ depsOf nodes n → d ∈ nodes.map Prod.fst) :
    ∀ rem c, (∀ n ∈ rem, n ∈ nodes.map Prod.fst) →
    whiteCount (nodes.map Prod.fst) c ≤ nodes.length →
    (detectLoop nodes (nodes.length + 1) rem c).isSome := by
  intro rem
  induction rem with
  | nil => intro c _ _; simp [detectLoop]
  | cons n rest ih =>
    intro c hrem hwc
    simp only [detectLoop]
    by_cases hw : c n = Color.white
    · rw [if_pos hw]
      have hdfs := (dfs_fuel_spec nodes hnd hcl (nodes.length + 1)).1 n c []
        hw (hrem n (List.mem_cons_self n rest)) (by omega)
      cases h : dfs nodes (nodes.length + 1) n c [] with
      | none => rw [h] at hdfs; cases hdfs
      | some r =>
        cases r with
        | error e => simp
        | ok c1 =>
          obtain ⟨hstep, _, _⟩ :=
            (dfs_ok_spec nodes (nodes.length + 1)).1 n c [] c1 hw h
          exact ih c1 (fun m hm => hrem m (List.mem_cons_of_mem n hm))
            (le_trans (whiteCount_mono (nodes.map Prod.fst) hstep) hwc)
    · rw [if_neg hw]
      exact ih c (fun m hm => hrem m (List.mem_cons_of_mem n hm)) hwc

theorem detect_total (nodes : Nodes)
    (hnd : (nodes.map Prod.fst).Nodup)
    (hcl : ∀ n d, d ∈ depsOf nodes n → d ∈ nodes.map Prod.fst) :
    (detect_cycles nodes).isSome := by
  unfold detect_cycles
  apply detectLoop_total nodes hnd hcl (nodes.map Prod.fst)
    (fun _ => Color.white) (fun n hn => hn)
  unfold whiteCount
  have : ((nodes.map Prod.fst).filter
      (fun n => (fun _ => Color.white) n = Color.white)) = nodes.map Prod.fst := by
    apply List.filter_eq_self.mpr
    intro a _
    simp
  rw [this, List.length_map]

theorem build_ok_parts (suites : List TestSuite) (ns : Nodes)
    (h : _build suites = .ok ns) :
    addAllEdges suites (createNodes suites []) = .ok ns ∧
    detect_cycles ns = some (.ok ()) := by
  unfold _build at h
  cases hadd : addAllEdges suites (createNodes suites []) with
  | error e => rw [hadd] at h; cases h
  | ok ns1 =>
    rw [hadd] at h
    dsimp only at h
    cases hdet : detect_cycles ns1 with
    | none => rw [hdet] at h; cases h
    | some r =>
      cases r with
      | error e => rw [hdet] at h; cases h
      | ok u =>
        rw [hdet] at h
        cases h
        cases u
        exact ⟨rfl, hdet⟩

theorem build_ok_acyclic (suites : List TestSuite) (ns : Nodes)
    (h : _build suites = .ok ns) : ¬ HasCycle ns :=
  detect_ok_acyclic ns (build_ok_parts suites ns h).2

/-- Core of claim C4 (amended): with valid references, a cyclic graph
makes `_build` fail with the circular-dependency error, whose payload is
a closed walk of real edges. -/
theorem build_cycle_behaviour (suites : List TestSuite) (ns : Nodes)
    (hadd : addAllEdges suites (createNodes suites []) = .ok ns)
    (hcyc : HasCycle ns) :
    ∃ p, _build suites = .error (.circularDependency p) ∧ ClosedWalk ns p := by
  obtain ⟨w, _, _⟩ := addAllEdges_wf suites (createNodes suites []) ns hadd
    (fun s hs => createNodes_has_suites suites s hs)
    (createNodes_wf suites) (createNodes_fresh suites)
  have hcl : ∀ n d, d ∈ depsOf ns n → d ∈ ns.map Prod.fst := by
    intro n d hd
    rw [← lookupNode_isSome_iff]
    exact w.depsClosed n d hd
  have htot := detect_total ns w.keysNodup hcl
  cases hdet : detect_cycles ns with
  | none => rw [hdet] at htot; cases htot
  | some r =>
    cases r with
    | ok u =>
      cases u
      exact absurd hcyc (detect_ok_acyclic ns hdet)
    | error e =>
      obtain ⟨p, rfl, hwalk⟩ := detect_err_walk ns e hdet
      refine ⟨p, ?_, hwalk⟩
      unfold _build
      rw [hadd]
      dsimp only
      rw [hdet]

/-! ## Kahn-loop lemmas -/

theorem depsOf_setExec (ns : Nodes) (n x : String) :
    depsOf (setNode ns n (fun d => { d with executed := true })) x =
      depsOf ns x := by
  unfold depsOf
  rw [lookupNode_setNode]
  by_cases hxn : x = n
  · subst hxn
    cases h : lookupNode ns x <;> simp [h]
  · rw [if_neg hxn]

theorem depdsOf_setExec (ns : Nodes) (n x : String) :
    depdsOf (setNode ns n (fun d => { d with executed := true })) x =
      depdsOf ns x := by
  unfold depdsOf
  rw [lookupNode_setNode]
  by_cases hxn : x = n
  · subst hxn
    cases h : lookupNode ns x <;> simp [h]
  · rw [if_neg hxn]

theorem executedOf_setExec (ns : Nodes) (n x : String) :
    executedOf (setNode ns n (fun d => { d with executed := true })) x =
      (executedOf ns x || (x = n && isNode ns x)) := by
  unfold executedOf isNode
  rw [lookupNode_setNode]
  by_cases hxn : x = n
  · subst hxn
    cases h : lookupNode ns x <;> simp [h]
  · rw [if_neg hxn]
    simp [hxn]

theorem statusOf_setExec (ns : Nodes) (n x : String) :
    statusOf (setNode ns n (fun d => { d with executed := true })) x =
      statusOf ns x := by
  unfold statusOf
  rw [lookupNode_setNode]
  by_cases hxn : x = n
  · subst hxn
    cases h : lookupNode ns x <;> simp [h]
  · rw [if_neg hxn]

theorem isNode_setExec (ns : Nodes) (n x : String) :
    isNode (setNode ns n (fun d => { d with executed := true })) x =
      isNode ns x :=
  setNode_isNode ns n _ x

/-- Total decrement each member of `group` contributes to `n`'s in-degree. -/
def decr (ns : Nodes) (group : List String) (n : String) : Int :=
  ((group.filter (fun p => n ∈ depdsOf ns p)).length : Int)

theorem decr_nil (ns : Nodes) (n : String) : decr ns [] n = 0 := rfl

theorem decr_cons (ns : Nodes) (p : String) (rest : List String) (n : String) :
    decr ns (p :: rest) n =
      (if n ∈ depdsOf ns p then 1 else 0) + decr ns rest n := by
  unfold decr
  rw [List.filter_cons]
  by_cases h : n ∈ depdsOf ns p <;> simp [h] <;> omega

theorem processDependents_spec (ds : List String) (hnd : ds.Nodup)
    (inDeg : String → Int) (q : List String) :
    (∀ n, (processDependents ds inDeg q).1 n =
      if n ∈ ds then inDeg n - 1 else inDeg n) ∧
    (processDependents ds inDeg q).2 = q ++ ds.filter (fun d => inDeg d = 1) := by
  induction ds generalizing inDeg q with
  | nil =>
    refine ⟨fun n => ?_, by simp [processDependents]⟩
    simp [processDependents]
  | cons d rest ih =>
    have hdrest : d ∉ rest := (List.nodup_cons.mp hnd).1
    have hndrest : rest.Nodup := (List.nodup_cons.mp hnd).2
    have hstep : processDependents (d :: rest) inDeg q =
        processDependents rest (fun n => if n = d then inDeg d - 1 else inDeg n)
          (if inDeg d - 1 = 0 then q ++ [d] else q) := by
      simp only [processDependents, ite_true]
    obtain ⟨ih1, ih2⟩ := ih hndrest
      (fun n => if n = d then inDeg d - 1 else inDeg n)
      (if inDeg d - 1 = 0 then q ++ [d] else q)
    constructor
    · intro n
      rw [hstep, ih1 n]
      by_cases hnd' : n = d
      · subst hnd'
        simp [hdrest]
      · by_cases hnr : n ∈ rest <;> simp [hnr, hnd', List.mem_cons]
    · rw [hstep, ih2]
      have hfeq : rest.filter
            (fun x => decide ((if x = d then inDeg d - 1 else inDeg x) = 1))
          = rest.filter (fun x => decide (inDeg x = 1)) := by
        apply List.filter_congr
        intro x hx
        have hxd : ¬ x = d := fun h => hdrest (h ▸ hx)
        simp [hxd]
      rw [hfeq, List.filter_cons]
      by_cases hd1 : inDeg d = 1
      · rw [if_pos (by omega : inDeg d - 1 = 0)]
        simp [hd1]
      · rw [if_neg (by omega : ¬ inDeg d - 1 = 0)]
        simp [hd1]

theorem processGroup_spec (group : List String) :
    ∀ (ns : Nodes) (inDeg : String → Int) (q : List String),
    group.Nodup →
    (∀ p, (depdsOf ns p).Nodup) →
    (∀ n, decr ns group n ≤ inDeg n) →
    (∀ n ∈ q, inDeg n ≤ 0) →
    q.Nodup →
    ((processGroup group ns inDeg q).1.map Prod.fst = ns.map Prod.fst) ∧
    (∀ x, depsOf (processGroup group ns inDeg q).1 x = depsOf ns x) ∧
    (∀ x, depdsOf (processGroup group ns inDeg q).1 x = depdsOf ns x) ∧
    (∀ x, statusOf (processGroup group ns inDeg q).1 x = statusOf ns x) ∧
    (∀ x, executedOf (processGroup group ns inDeg q).1 x =
      (executedOf ns x || (decide (x ∈ group) && isNode ns x))) ∧
    (∀ n, (processGroup group ns inDeg q).2.1 n = inDeg n - decr ns group n) ∧
    (∀ n, n ∈ (processGroup group ns inDeg q).2.2 ↔
      n ∈ q ∨ (1 ≤ inDeg n ∧ decr ns group n = inDeg n)) ∧
    (processGroup group ns inDeg q).2.2.Nodup := by
  induction group with
  | nil =>
    intro ns inDeg q _ _ _ _ hqnd
    refine ⟨rfl, fun x => rfl, fun x => rfl, fun x => rfl, fun x => ?_,
      fun n => ?_, fun n => ?_, hqnd⟩
    · show executedOf ns x = (executedOf ns x || (decide (x ∈ []) && isNode ns x))
      simp
    · show inDeg n = inDeg n - decr ns [] n
      rw [decr_nil]; omega
    · show n ∈ q ↔ n ∈ q ∨ (1 ≤ inDeg n ∧ decr ns [] n = inDeg n)
      rw [decr_nil]
      constructor
      · exact Or.inl
      · rintro (h | ⟨h1, h2⟩)
        · exact h
        · omega
  | cons p rest ih =>
    intro ns inDeg q hgnd hddnd hbound hq hqnd
    have hprest : p ∉ rest := (List.nodup_cons.mp hgnd).1
    have hrestnd : rest.Nodup := (List.nodup_cons.mp hgnd).2
    -- one step
    have hstep : processGroup (p :: rest) ns inDeg q =
        processGroup rest (setNode ns p (fun d => { d with executed := true }))
          (processDependents
            (depdsOf (setNode ns p (fun d => { d with executed := true })) p)
            inDeg q).1
          (processDependents
            (depdsOf (setNode ns p (fun d => { d with executed := true })) p)
            inDeg q).2 := by
      simp only [processGroup]
    set ns1 := setNode ns p (fun d => { d with executed := true }) with hns1
    have hdd1 : depdsOf ns1 p = depdsOf ns p := depdsOf_setExec ns p p
    obtain ⟨hpd1, hpd2⟩ := processDependents_spec (depdsOf ns1 p)
      (hdd1 ▸ hddnd p) inDeg q
    set inDeg1 := (processDependents (depdsOf ns1 p) inDeg q).1 with hinDeg1
    set q1 := (processDependents (depdsOf ns1 p) inDeg q).2 with hq1
    -- rewrite the dependent list in the PD results
    rw [hdd1] at hpd1 hpd2
    have hdecr1 : ∀ (g : List String) (n : String), decr ns1 g n = decr ns g n := by
      intro g n
      unfold decr
      have : g.filter (fun x => decide (n ∈ depdsOf ns1 x)) =
          g.filter (fun x => decide (n ∈ depdsOf ns x)) := by
        apply List.filter_congr
        intro x _
        rw [hns1, depdsOf_setExec]
      rw [this]
    have hnat : ∀ (g : List String) (n : String), (0:Int) ≤ decr ns g n := by
      intro g n
      exact Int.natCast_nonneg _
    -- hypotheses for the IH
    have hddnd1 : ∀ x, (depdsOf ns1 x).Nodup := by
      intro x
      rw [depdsOf_setExec]
      exact hddnd x
    have hbound1 : ∀ n, decr ns1 rest n ≤ inDeg1 n := by
      intro n
      rw [hdecr1, hpd1 n]
      have := hbound n
      rw [decr_cons] at this
      by_cases hmem : n ∈ depdsOf ns p <;> simp [hmem] at this ⊢ <;> omega
    have hq1z : ∀ n ∈ q1, inDeg1 n ≤ 0 := by
      intro n hn
      rw [hpd2] at hn
      rw [hpd1 n]
      rcases List.mem_append.mp hn with hn' | hn'
      · have := hq n hn'
        by_cases hmem : n ∈ depdsOf ns p <;> simp [hmem] <;> omega
      · have h1 := (List.mem_filter.mp hn').1
        have h2 := (List.mem_filter.mp hn').2
        rw [decide_eq_true_iff] at h2
        simp [h1, h2]
    have hq1nd : q1.Nodup := by
      rw [hpd2, List.nodup_append]
      refine ⟨hqnd, (hddnd p).filter _, ?_⟩
      intro a ha hb
      have h2 := (List.mem_filter.mp hb).2
      rw [decide_eq_true_iff] at h2
      have := hq a ha
      omega
    obtain ⟨ikeys, ideps, idepds, istat, iexec, ideg, iq, iqnd⟩ :=
      ih ns1 inDeg1 q1 hrestnd hddnd1 hbound1 hq1z hq1nd
    rw [hstep]
    refine ⟨?_, ?_, ?_, ?_, ?_, ?_, ?_, iqnd⟩
    · rw [ikeys, hns1, setNode_keys]
    · intro x
      rw [ideps x, hns1, depsOf_setExec]
    · intro x
      rw [idepds x, hns1, depdsOf_setExec]
    · intro x
      rw [istat x, hns1, statusOf_setExec]
    · intro x
      rw [iexec x]
      rw [hns1, executedOf_setExec, isNode_setExec]
      by_cases hxp : x = p <;> by_cases hxr : x ∈ rest <;>
        by_cases hex : executedOf ns x <;> by_cases hnode : isNode ns x <;>
        simp [hxp, hxr, hex, hnode, List.mem_cons] <;> tauto
    · intro n
      rw [ideg n, hdecr1, hpd1 n, decr_cons]
      by_cases hmem : n ∈ depdsOf ns p
      · simp only [if_pos hmem]
        omega
      · simp only [if_neg hmem]
        omega
    · intro n
      rw [iq n, hpd2, List.mem_append, List.mem_filter, hpd1 n, hdecr1,
        decr_cons]
      simp only [decide_eq_true_iff]
      have ht : (0:Int) ≤ decr ns rest n := hnat rest n
      have hb := hbound n
      rw [decr_cons] at hb
      by_cases hmem : n ∈ depdsOf ns p
      · simp only [if_pos hmem] at hb ⊢
        constructor
        · rintro ((hn | ⟨_, h1⟩) | ⟨h2, h3⟩)
          · exact Or.inl hn
          · right; omega
          · right; omega
        · rintro (hn | ⟨h1, h2⟩)
          · exact Or.inl (Or.inl hn)
          · by_cases hv1 : inDeg n = 1
            · exact Or.inl (Or.inr ⟨hmem, hv1⟩)
            · right; omega
      · simp only [if_neg hmem] at hb ⊢
        constructor
        · rintro ((hn | ⟨hmem', _⟩) | ⟨h2, h3⟩)
          · exact Or.inl hn
          · exact absurd hmem' hmem
          · right; omega
        · rintro (hn | ⟨h1, h2⟩)
          · exact Or.inl (Or.inl hn)
          · right; omega

theorem filter_mem_comm (l1 l2 : List String) (h1 : l1.Nodup) (h2 : l2.Nodup) :
    (l1.filter (fun x => decide (x ∈ l2))).length =
      (l2.filter (fun x => decide (x ∈ l1))).length := by
  apply List.Perm.length_eq
  apply (List.perm_ext_iff_of_nodup (h1.filter _) (h2.filter _)).mpr
  intro a
  simp only [List.mem_filter, decide_eq_true_iff]
  exact and_comm

theorem subset_of_filter_count_eq (l : List String) (p r : String → Bool)
    (himp : ∀ x, p x = true → r x = true)
    (hlen : (l.filter r).length ≤ (l.filter p).length)
    (hnd : l.Nodup) :
    ∀ x ∈ l, r x = true → p x = true := by
  have hsub : l.filter p ⊆ l.filter r := by
    intro a ha
    exact List.mem_filter.mpr ⟨(List.mem_filter.mp ha).1,
      himp a (List.mem_filter.mp ha).2⟩
  have hperm : List.Perm (l.filter p) (l.filter r) :=
    ((hnd.filter p).subperm hsub).perm_of_length_le hlen
  intro x hx hr
  have hmem : x ∈ l.filter r := List.mem_filter.mpr ⟨hx, hr⟩
  exact (List.mem_filter.mp (hperm.mem_iff.mpr hmem)).2

theorem count_remaining_split (deps D g : List String)
    (hdisj : ∀ a ∈ g, a ∉ D) :
    (deps.filter (fun d => decide (d ∉ D))).length =
      (deps.filter (fun d => decide (d ∉ D ++ g))).length +
      (deps.filter (fun d => decide (d ∈ g))).length := by
  have hsplit := List.length_eq_length_filter_add
    (l := deps.filter (fun d => decide (d ∉ D))) (fun d => decide (d ∈ g))
  rw [List.filter_filter, List.filter_filter] at hsplit
  have h1 : deps.filter (fun a => decide (a ∈ g) && decide (a ∉ D)) =
      deps.filter (fun d => decide (d ∈ g)) := by
    apply List.filter_congr
    intro x _
    by_cases hg : x ∈ g
    · simp [hg, hdisj x hg]
    · simp [hg]
  have h2 : deps.filter (fun a => !decide (a ∈ g) && decide (a ∉ D)) =
      deps.filter (fun d => decide (d ∉ D ++ g)) := by
    apply List.filter_congr
    intro x _
    by_cases hg : x ∈ g <;> by_cases hD : x ∈ D <;>
      simp [hg, hD, List.mem_append]
  rw [h1, h2] at hsplit
  omega

theorem decr_eq_count (nodes0 ns : Nodes) (w : WFdag nodes0)
    (hdepds : ∀ x, depdsOf ns x = depdsOf nodes0 x)
    (g : List String) (n : String) (hgnd : g.Nodup) :
    decr ns g n =
      (((depsOf nodes0 n).filter (fun d => decide (d ∈ g))).length : Int) := by
  unfold decr
  have h1 : g.filter (fun p => decide (n ∈ depdsOf ns p)) =
      g.filter (fun p => decide (p ∈ depsOf nodes0 n)) := by
    apply List.filter_congr
    intro x _
    have : n ∈ depdsOf ns x ↔ x ∈ depsOf nodes0 n := by
      rw [hdepds x]
      exact (w.edgeInv n x).symm
    simp [this]
  rw [h1]
  rw [filter_mem_comm g (depsOf nodes0 n) hgnd (w.depsNodup n)]

theorem decr_nonnode_zero (nodes0 ns : Nodes) (w : WFdag nodes0)
    (hdepds : ∀ x, depdsOf ns x = depdsOf nodes0 x)
    (hkeys : ns.map Prod.fst = nodes0.map Prod.fst)
    (g : List String) (n : String) (hn : n ∉ nodes0.map Prod.fst) :
    decr ns g n = 0 := by
  unfold decr
  have : g.filter (fun p => decide (n ∈ depdsOf ns p)) = [] := by
    rw [List.filter_eq_nil_iff]
    intro p _
    simp only [decide_eq_true_iff]
    intro hmem
    rw [hdepds p] at hmem
    have := w.depdsClosed p n hmem
    rw [← lookupNode_isSome_iff] at hn
    exact absurd this (by simpa [isNode] using hn)
  rw [this]
  rfl

theorem mem_flatten_take {acc : List (List String)} {i : Nat} {d : String}
    (h : d ∈ (acc.take i).flatten) : d ∈ acc.flatten := by
  rw [List.mem_flatten] at h ⊢
  obtain ⟨l, hl, hd⟩ := h
  exact ⟨l, (List.take_subset i acc) hl, hd⟩

theorem flatten_concat_group (acc : List (List String)) (g : List String) :
    (acc ++ [g]).flatten = acc.flatten ++ g := by
  rw [List.flatten_append]
  simp

/-- Master invariant lemma for the `while queue` loop of
`get_execution_order`: with enough fuel the loop terminates, scheduling
each suite at most once, strictly after all of its dependencies, and any
suite left unscheduled has an unscheduled dependency. -/
theorem kahnLoop_spec (nodes0 : Nodes) (w : WFdag nodes0) :
    ∀ (fuel : Nat) (q : List String) (ns : Nodes) (inDeg : String → Int)
      (acc : List (List String)),
    ((nodes0.map Prod.fst).length < fuel + acc.flatten.length) →
    (ns.map Prod.fst = nodes0.map Prod.fst) →
    (∀ x, depsOf ns x = depsOf nodes0 x) →
    (∀ x, depdsOf ns x = depdsOf nodes0 x) →
    (∀ x, executedOf ns x = decide (x ∈ acc.flatten)) →
    ((acc.flatten ++ q).Nodup) →
    (∀ n ∈ acc.flatten ++ q, n ∈ nodes0.map Prod.fst) →
    (∀ n, n ∈ nodes0.map Prod.fst → inDeg n =
      (((depsOf nodes0 n).filter (fun d => decide (d ∉ acc.flatten))).length : Int)) →
    (∀ n, n ∉ nodes0.map Prod.fst → inDeg n = 0) →
    (∀ n, n ∈ nodes0.map Prod.fst → inDeg n = 0 → n ∈ acc.flatten ++ q) →
    (∀ n ∈ q, ∀ d ∈ depsOf nodes0 n, d ∈ acc.flatten) →
    (∀ i gi, acc[i]? = some gi → ∀ n ∈ gi, ∀ d ∈ depsOf nodes0 n,
      d ∈ (acc.take i).flatten) →
    ∃ acc' ns', kahnLoop fuel q ns inDeg acc = some (acc', ns') ∧
      acc'.flatten.Nodup ∧
      (∀ n ∈ acc'.flatten, n ∈ nodes0.map Prod.fst) ∧
      (∀ i gi, acc'[i]? = some gi → ∀ n ∈ gi, ∀ d ∈ depsOf nodes0 n,
        d ∈ (acc'.take i).flatten) ∧
      (∀ n, n ∈ nodes0.map Prod.fst → n ∉ acc'.flatten →
        ∃ d, d ∈ depsOf nodes0 n ∧ d ∉ acc'.flatten) ∧
      (∀ x, executedOf ns' x = decide (x ∈ acc'.flatten)) ∧
      (ns'.map Prod.fst = nodes0.map Prod.fst) ∧
      (∀ x, statusOf ns' x = statusOf ns x) := by
  intro fuel
  induction fuel with
  | zero =>
    intro q ns inDeg acc hfuel _ _ _ _ hI2 hI3 _ _ _ _ _
    exfalso
    have hsub : acc.flatten ⊆ nodes0.map Prod.fst := by
      intro n hn
      exact hI3 n (List.mem_append.mpr (Or.inl hn))
    have hnd : acc.flatten.Nodup := (List.nodup_append.mp hI2).1
    have := (hnd.subperm hsub).length_le
    omega
  | succ fuel IH =>
    intro q ns inDeg acc hfuel hkeys hdeps hdepds hexec hI2 hI3 hI4 hI8 hI5
      hI6 hI7
    cases q with
    | nil =>
      refine ⟨acc, ns, rfl, ?_, ?_, hI7, ?_, hexec, hkeys, fun x => rfl⟩
      · simpa using hI2
      · intro n hn
        exact hI3 n (List.mem_append.mpr (Or.inl hn))
      · intro n hmem hnot
        have hne : inDeg n ≠ 0 := by
          intro h0
          have := hI5 n hmem h0
          rw [List.append_nil] at this
          exact hnot this
        rw [hI4 n hmem] at hne
        have hfil : (depsOf nodes0 n).filter
            (fun d => decide (d ∉ acc.flatten)) ≠ [] := by
          intro hnil
          rw [hnil] at hne
          simp at hne
        obtain ⟨d, hd⟩ := List.exists_mem_of_ne_nil _ hfil
        have := List.mem_filter.mp hd
        exact ⟨d, this.1, by simpa using this.2⟩
    | cons a as =>
      set g : List String := a :: as with hg
      have hstep : kahnLoop (fuel + 1) g ns inDeg acc =
          kahnLoop fuel (processGroup g ns inDeg []).2.2
            (processGroup g ns inDeg []).1
            (processGroup g ns inDeg []).2.1 (acc ++ [g]) := rfl
      -- facts about the group
      have hgnd : g.Nodup := (List.nodup_append.mp hI2).2.1
      have hgdisj : ∀ n ∈ g, n ∉ acc.flatten := by
        intro n hn hmem
        exact (List.nodup_append.mp hI2).2.2 hmem hn
      have hgsub : ∀ n ∈ g, n ∈ nodes0.map Prod.fst := by
        intro n hn
        exact hI3 n (List.mem_append.mpr (Or.inr hn))
      have hddnd : ∀ p, (depdsOf ns p).Nodup := by
        intro p
        rw [hdepds p]
        exact w.depdsNodup p
      have hdecr : ∀ n, decr ns g n =
          (((depsOf nodes0 n).filter (fun d => decide (d ∈ g))).length : Int) :=
        fun n => decr_eq_count nodes0 ns w hdepds g n hgnd
      have hboundN : ∀ n, decr ns g n ≤ inDeg n := by
        intro n
        by_cases hmem : n ∈ nodes0.map Prod.fst
        · rw [hdecr n, hI4 n hmem]
          have hsl : ((depsOf nodes0 n).filter (fun d => decide (d ∈ g))).length
              ≤ ((depsOf nodes0 n).filter
                  (fun d => decide (d ∉ acc.flatten))).length := by
            apply List.Sublist.length_le
            apply List.monotone_filter_right
            intro x hx
            rw [decide_eq_true_iff] at hx
            simpa using hgdisj x hx
          omega
        · rw [hI8 n hmem, decr_nonnode_zero nodes0 ns w hdepds hkeys g n hmem]
      obtain ⟨pkeys, pdeps, pdepds, pstat, pexec, pdeg, pq, pqnd⟩ :=
        processGroup_spec g ns inDeg [] hgnd hddnd hboundN
          (fun n hn => absurd hn (List.not_mem_nil n)) List.nodup_nil
      set ns2 := (processGroup g ns inDeg []).1 with hns2
      set inDeg2 := (processGroup g ns inDeg []).2.1 with hinDeg2
      set q2 := (processGroup g ns inDeg []).2.2 with hq2
      have hq2iff : ∀ n, n ∈ q2 ↔ (1 ≤ inDeg n ∧ decr ns g n = inDeg n) := by
        intro n
        rw [pq n]
        simp
      -- suites already scheduled have all dependencies scheduled
      have hsched_deps : ∀ n ∈ acc.flatten, ∀ d ∈ depsOf nodes0 n,
          d ∈ acc.flatten := by
        intro n hn d hd
        obtain ⟨l, hl, hnl⟩ := List.mem_flatten.mp hn
        obtain ⟨i, hi⟩ := List.getElem?_of_mem hl
        exact mem_flatten_take (hI7 i l hi n hnl d hd)
      have hzero_of_deps : ∀ n, n ∈ nodes0.map Prod.fst →
          (∀ d ∈ depsOf nodes0 n, d ∈ acc.flatten) → inDeg n = 0 := by
        intro n hmem hdeps'
        rw [hI4 n hmem]
        have : (depsOf nodes0 n).filter (fun d => decide (d ∉ acc.flatten))
            = [] := by
          rw [List.filter_eq_nil_iff]
          intro d hd
          simpa using hdeps' d hd
        rw [this]
        rfl
      have hzero_flatten : ∀ n ∈ acc.flatten, inDeg n = 0 := by
        intro n hn
        exact hzero_of_deps n (hI3 n (List.mem_append.mpr (Or.inl hn)))
          (hsched_deps n hn)
      have hzero_g : ∀ n ∈ g, inDeg n = 0 := by
        intro n hn
        exact hzero_of_deps n (hgsub n hn) (hI6 n hn)
      -- facts about the freshly enqueued suites
      have hq2node : ∀ n ∈ q2, n ∈ nodes0.map Prod.fst := by
        intro n hn
        by_contra hmem
        have := hI8 n hmem
        have h1 := ((hq2iff n).mp hn).1
        omega
      have hq2notflat : ∀ n ∈ q2, n ∉ acc.flatten := by
        intro n hn hmem
        have := hzero_flatten n hmem
        have h1 := ((hq2iff n).mp hn).1
        omega
      have hq2notg : ∀ n ∈ q2, n ∉ g := by
        intro n hn hmem
        have := hzero_g n hmem
        have h1 := ((hq2iff n).mp hn).1
        omega
      have hq2deps : ∀ n ∈ q2, ∀ d ∈ depsOf nodes0 n,
          d ∈ acc.flatten ++ g := by
        intro n hn d hd
        by_cases hdf : d ∈ acc.flatten
        · exact List.mem_append.mpr (Or.inl hdf)
        · refine List.mem_append.mpr (Or.inr ?_)
          obtain ⟨h1, h2⟩ := (hq2iff n).mp hn
          have hmem := hq2node n hn
          rw [hdecr n, hI4 n hmem] at h2
          have hcnt : ((depsOf nodes0 n).filter
              (fun d => decide (d ∉ acc.flatten))).length ≤
              ((depsOf nodes0 n).filter (fun d => decide (d ∈ g))).length := by
            omega
          have := subset_of_filter_count_eq (depsOf nodes0 n)
            (fun d => decide (d ∈ g)) (fun d => decide (d ∉ acc.flatten))
            (fun x hx => by
              rw [decide_eq_true_iff] at hx ⊢
              exact hgdisj x hx)
            hcnt (w.depsNodup n) d hd (by simpa using hdf)
          simpa using this
      have hnodeg : ∀ x ∈ g, isNode ns x = true := by
        intro x hx
        have : x ∈ ns.map Prod.fst := by
          rw [hkeys]
          exact hgsub x hx
        rw [← lookupNode_isSome_iff] at this
        exact this
      have hflat2 : (acc ++ [g]).flatten = acc.flatten ++ g :=
        flatten_concat_group acc g
      -- the invariants for the next round
      have hfuel2 : (nodes0.map Prod.fst).length <
          fuel + (acc ++ [g]).flatten.length := by
        rw [hflat2, List.length_append]
        have : 1 ≤ g.length := by
          rw [hg]
          simp
        omega
      have hexec2 : ∀ x, executedOf ns2 x =
          decide (x ∈ (acc ++ [g]).flatten) := by
        intro x
        rw [pexec x, hexec x, hflat2]
        by_cases hxf : x ∈ acc.flatten
        · simp [hxf]
        · by_cases hxg : x ∈ g
          · simp [hxf, hxg, hnodeg x hxg]
          · simp [hxf, hxg]
      have hI2n : ((acc ++ [g]).flatten ++ q2).Nodup := by
        rw [hflat2, List.nodup_append]
        refine ⟨hI2, pqnd, ?_⟩
        intro x hx hx2
        rcases List.mem_append.mp hx with hxf | hxg
        · exact hq2notflat x hx2 hxf
        · exact hq2notg x hx2 hxg
      have hI3n : ∀ n ∈ (acc ++ [g]).flatten ++ q2,
          n ∈ nodes0.map Prod.fst := by
        intro n hn
        rcases List.mem_append.mp hn with hn1 | hn2
        · rw [hflat2] at hn1
          rcases List.mem_append.mp hn1 with hnf | hng
          · exact hI3 n (List.mem_append.mpr (Or.inl hnf))
          · exact hgsub n hng
        · exact hq2node n hn2
      have hI4n : ∀ n, n ∈ nodes0.map Prod.fst → inDeg2 n =
          (((depsOf nodes0 n).filter
            (fun d => decide (d ∉ (acc ++ [g]).flatten))).length : Int) := by
        intro n hmem
        rw [pdeg n, hdecr n, hI4 n hmem]
        have hsplit := count_remaining_split (depsOf nodes0 n) acc.flatten g
          hgdisj
        have hcong : (depsOf nodes0 n).filter
            (fun d => decide (d ∉ (acc ++ [g]).flatten)) =
            (depsOf nodes0 n).filter
            (fun d => decide (d ∉ acc.flatten ++ g)) := by
          apply List.filter_congr
          intro x _
          rw [hflat2]
        rw [hcong]
        omega
      have hI8n : ∀ n, n ∉ nodes0.map Prod.fst → inDeg2 n = 0 := by
        intro n hmem
        rw [pdeg n, hI8 n hmem,
          decr_nonnode_zero nodes0 ns w hdepds hkeys g n hmem]
        simp
      have hI5n : ∀ n, n ∈ nodes0.map Prod.fst → inDeg2 n = 0 →
          n ∈ (acc ++ [g]).flatten ++ q2 := by
        intro n hmem h0
        rw [pdeg n] at h0
        by_cases hz : inDeg n = 0
        · have := hI5 n hmem hz
          refine List.mem_append.mpr (Or.inl ?_)
          rw [hflat2]
          exact this
        · have hge : (0:Int) ≤ inDeg n := by
            rw [hI4 n hmem]
            exact Int.natCast_nonneg _
          have : n ∈ q2 := (hq2iff n).mpr ⟨by omega, by omega⟩
          exact List.mem_append.mpr (Or.inr this)
      have hI6n : ∀ n ∈ q2, ∀ d ∈ depsOf nodes0 n,
          d ∈ (acc ++ [g]).flatten := by
        intro n hn d hd
        rw [hflat2]
        exact hq2deps n hn d hd
      have hI7n : ∀ i gi, (acc ++ [g])[i]? = some gi → ∀ n ∈ gi,
          ∀ d ∈ depsOf nodes0 n, d ∈ ((acc ++ [g]).take i).flatten := by
        intro i gi hgi n hn d hd
        by_cases hi : i < acc.length
        · rw [List.getElem?_append_left hi] at hgi
          have htake : (acc ++ [g]).take i = acc.take i := by
            rw [List.take_append_eq_append_take]
            have : i - acc.length = 0 := by omega
            rw [this]
            simp
          rw [htake]
          exact hI7 i gi hgi n hn d hd
        · by_cases hi2 : i = acc.length
          · subst hi2
            rw [List.getElem?_concat_length] at hgi
            cases hgi
            have htake : (acc ++ [g]).take acc.length = acc :=
              List.take_left acc [g]
            rw [htake]
            exact hI6 n hn d hd
          · exfalso
            have : (acc ++ [g]).length ≤ i := by
              rw [List.length_append]
              simp
              omega
            rw [List.getElem?_eq_none this] at hgi
            cases hgi
      obtain ⟨acc', ns', heq, E1, E2, E3, E4, E5, E6, E7⟩ :=
        IH q2 ns2 inDeg2 (acc ++ [g]) hfuel2
          (by rw [pkeys]; exact hkeys)
          (fun x => by rw [pdeps x]; exact hdeps x)
          (fun x => by rw [pdepds x]; exact hdepds x)
          hexec2 hI2n hI3n hI4n hI8n hI5n hI6n hI7n
      refine ⟨acc', ns', ?_, E1, E2, E3, E4, E5, E6, ?_⟩
      · rw [hstep]
        exact heq
      · intro x
        rw [E7 x, pstat x]

theorem head?_getLast?_range_map (f : Nat → String) (m : Nat)
    (hfm : f 0 = f m) :
    ((List.range (m + 1)).map f).head? = ((List.range (m + 1)).map f).getLast? := by
  have hh : ((List.range (m + 1)).map f).head? = some (f 0) := by
    rw [List.range_succ_eq_map]
    rfl
  have hl : ((List.range (m + 1)).map f).getLast? = some (f m) := by
    rw [List.range_succ, List.map_append]
    simp
  rw [hh, hl, hfm]

/-- In an acyclic graph, a "stuck" set (every unscheduled node keeps an
unscheduled dependency) cannot leave any node out: otherwise following
unscheduled dependencies forever would repeat a node and close a cycle. -/
theorem complete_of_acyclic (nodes0 : Nodes) (w : WFdag nodes0)
    (hacy : ¬ HasCycle nodes0) (S : List String)
    (hstuck : ∀ n, n ∈ nodes0.map Prod.fst → n ∉ S →
      ∃ d, d ∈ depsOf nodes0 n ∧ d ∉ S) :
    ∀ n ∈ nodes0.map Prod.fst, n ∈ S := by
  by_contra hex
  push_neg at hex
  obtain ⟨n0, hn0mem, hn0not⟩ := hex
  classical
  let g : String → String := fun n =>
    if h : ∃ d, d ∈ depsOf nodes0 n ∧ d ∉ S then h.choose else n
  have hgspec : ∀ n, n ∈ nodes0.map Prod.fst → n ∉ S →
      g n ∈ depsOf nodes0 n ∧ g n ∉ S ∧ g n ∈ nodes0.map Prod.fst := by
    intro n hmem hnot
    have hx := hstuck n hmem hnot
    have h1 : g n = hx.choose := by
      show (if h : _ then _ else _) = _
      rw [dif_pos hx]
    obtain ⟨hd1, hd2⟩ := hx.choose_spec
    rw [h1]
    refine ⟨hd1, hd2, ?_⟩
    rw [← lookupNode_isSome_iff]
    exact w.depsClosed n hx.choose hd1
  let seq : Nat → String := fun k => g^[k] n0
  have hseq : ∀ k, seq k ∈ nodes0.map Prod.fst ∧ seq k ∉ S := by
    intro k
    induction k with
    | zero => exact ⟨hn0mem, hn0not⟩
    | succ k ih =>
      have hnext := hgspec (seq k) ih.1 ih.2
      have : seq (k + 1) = g (seq k) := Function.iterate_succ_apply' g k n0
      rw [this]
      exact ⟨hnext.2.2, hnext.2.1⟩
  have hedge : ∀ k, seq (k + 1) ∈ depsOf nodes0 (seq k) := by
    intro k
    have := hgspec (seq k) (hseq k).1 (hseq k).2
    have h2 : seq (k + 1) = g (seq k) := Function.iterate_succ_apply' g k n0
    rw [h2]
    exact this.1
  -- pigeonhole on the first |names| + 1 entries of the sequence
  obtain ⟨i, hi, j, hj, hij, hseqeq⟩ :=
    Finset.exists_ne_map_eq_of_card_lt_of_maps_to
      (s := Finset.range ((nodes0.map Prod.fst).length + 1))
      (t := (nodes0.map Prod.fst).toFinset)
      (by
        rw [Finset.card_range]
        exact Nat.lt_succ_of_le (List.toFinset_card_le _))
      (fun k _ => List.mem_toFinset.mpr (hseq k).1)
  -- order the repeat
  rcases Nat.lt_or_ge i j with hlt | hge
  case _ =>
    apply hacy
    refine ⟨(List.range (j - i + 1)).map (fun k => seq (i + k)), ?_, ?_, ?_⟩
    · rw [List.length_map, List.length_range]
      omega
    · apply head?_getLast?_range_map
      show seq (i + 0) = seq (i + (j - i))
      have h1 : i + (j - i) = j := by omega
      rw [Nat.add_zero, h1]
      exact hseqeq
    · rw [List.chain'_map]
      rw [List.chain'_range_succ]
      intro m hm
      have : i + (m + 1) = i + m + 1 := by omega
      rw [this]
      exact hedge (i + m)
  case _ =>
    have hlt : j < i := by omega
    apply hacy
    refine ⟨(List.range (i - j + 1)).map (fun k => seq (j + k)), ?_, ?_, ?_⟩
    · rw [List.length_map, List.length_range]
      omega
    · apply head?_getLast?_range_map
      show seq (j + 0) = seq (j + (i - j))
      have h1 : j + (i - j) = i := by omega
      rw [Nat.add_zero, h1]
      exact hseqeq.symm
    · rw [List.chain'_map]
      rw [List.chain'_range_succ]
      intro m hm
      have : j + (m + 1) = j + m + 1 := by omega
      rw [this]
      exact hedge (j + m)

theorem lookupNode_of_mem (ns : Nodes) (hnd : (ns.map Prod.fst).Nodup)
    (p : String × DAGNode) (hp : p ∈ ns) : lookupNode ns p.1 = some p.2 := by
  induction ns with
  | nil => cases hp
  | cons q rest ih =>
    rcases List.mem_cons.mp hp with rfl | hp'
    · rw [lookupNode_cons, if_pos rfl]
    · have hq : q.1 ≠ p.1 := by
        intro h
        have : p.1 ∈ rest.map Prod.fst := List.mem_map_of_mem Prod.fst hp'
        rw [← h] at this
        exact (List.nodup_cons.mp (by simpa using hnd)).1 this
      rw [lookupNode_cons, if_neg hq]
      exact ih (List.nodup_cons.mp (by simpa using hnd)).2 hp'

theorem flatten_nodup_unique_group {acc : List (List String)}
    (hnd : acc.flatten.Nodup) {i j : Nat} {gi gj : List String} {d : String}
    (hi : acc[i]? = some gi) (hj : acc[j]? = some gj)
    (hdi : d ∈ gi) (hdj : d ∈ gj) : i = j := by
  by_contra hne
  have hpw : acc.Pairwise List.Disjoint := (List.nodup_flatten.mp hnd).2
  obtain ⟨hilt, hieq⟩ := List.getElem?_eq_some_iff.mp hi
  obtain ⟨hjlt, hjeq⟩ := List.getElem?_eq_some_iff.mp hj
  rw [List.pairwise_iff_getElem] at hpw
  rcases Nat.lt_or_ge i j with hlt | hge
  · exact hpw i j hilt hjlt hlt (hieq ▸ hdi) (hjeq ▸ hdj)
  · have hlt : j < i := by omega
    exact hpw j i hjlt hilt hlt (hjeq ▸ hdj) (hieq ▸ hdi)

/-- Full functional specification of `get_execution_order` on a freshly
built acyclic graph: it succeeds, its groups partition the suite set,
and every suite sits in a strictly later group than each of its
dependencies. -/
theorem get_execution_order_spec (nodes0 : Nodes) (w : WFdag nodes0)
    (hfresh : FreshFlags nodes0) (hacy : ¬ HasCycle nodes0) :
    ∃ groups ns', get_execution_order nodes0 = (.ok groups, ns') ∧
      List.Perm groups.flatten (nodes0.map Prod.fst) ∧
      (∀ (i j : Nat) (gi gj : List String) (s d : String),
        groups[i]? = some gi → groups[j]? = some gj →
        s ∈ gi → d ∈ depsOf nodes0 s → d ∈ gj → j < i) := by
  have hspec := kahnLoop_spec nodes0 w (nodes0.length + 1)
    ((nodes0.map Prod.fst).filter
      (fun n => (((depsOf nodes0 n).length : Int)) = 0))
    nodes0 (fun n => ((depsOf nodes0 n).length : Int)) []
    (by simp)
    rfl (fun x => rfl) (fun x => rfl)
    (fun x => by simpa using (hfresh x).1)
    (by
      simp only [List.flatten_nil, List.nil_append]
      exact w.keysNodup.filter _)
    (by
      intro n hn
      simp only [List.flatten_nil, List.nil_append] at hn
      exact (List.mem_filter.mp hn).1)
    (by
      intro n hmem
      simp only [List.flatten_nil]
      congr 1
      rw [List.filter_eq_self.mpr]
      intro a _
      simp)
    (by
      intro n hmem
      have hn : lookupNode nodes0 n = none := (lookupNode_eq_none_iff _ _).mpr hmem
      show (((depsOf nodes0 n).length : Int)) = 0
      unfold depsOf
      rw [hn]
      rfl)
    (by
      intro n hmem h0
      simp only [List.flatten_nil, List.nil_append]
      refine List.mem_filter.mpr ⟨hmem, ?_⟩
      simpa using h0)
    (by
      intro n hn d hd
      exfalso
      have h2 := (List.mem_filter.mp hn).2
      rw [decide_eq_true_iff] at h2
      have : depsOf nodes0 n = [] := by
        have := List.length_eq_zero.mp (by exact_mod_cast h2)
        exact this
      rw [this] at hd
      cases hd)
    (by
      intro i gi hgi
      simp at hgi)
  obtain ⟨acc', ns', heq, E1, E2, E3, E4, E5, E6, E7⟩ := hspec
  have hcomp : ∀ n ∈ nodes0.map Prod.fst, n ∈ acc'.flatten :=
    complete_of_acyclic nodes0 w hacy acc'.flatten
      (fun n hmem hnot => E4 n hmem hnot)
  have hns'nodup : (ns'.map Prod.fst).Nodup := by
    rw [E6]
    exact w.keysNodup
  have hfilnil : ns'.filter (fun p => !p.2.executed) = [] := by
    rw [List.filter_eq_nil_iff]
    intro p hp
    have hkey : p.1 ∈ nodes0.map Prod.fst := by
      rw [← E6]
      exact List.mem_map_of_mem Prod.fst hp
    have hflat : p.1 ∈ acc'.flatten := hcomp p.1 hkey
    have hexecp : executedOf ns' p.1 = true := by
      rw [E5]
      simpa using hflat
    have hlook : lookupNode ns' p.1 = some p.2 :=
      lookupNode_of_mem ns' hns'nodup p hp
    unfold executedOf at hexecp
    rw [hlook] at hexecp
    simp only [Option.map_some', Option.getD_some] at hexecp
    simp [hexecp]
  refine ⟨acc', ns', ?_, ?_, ?_⟩
  · unfold get_execution_order
    dsimp only
    rw [heq]
    dsimp only
    rw [hfilnil]
    simp
  · apply (List.perm_ext_iff_of_nodup E1 w.keysNodup).mpr
    intro a
    exact ⟨fun h => E2 a h, fun h => hcomp a h⟩
  · intro i j gi gj s d hgi hgj hs hd hdj
    have hmem := E3 i gi hgi s hs d hd
    obtain ⟨l, hl, hdl⟩ := List.mem_flatten.mp hmem
    obtain ⟨j', hj'⟩ := List.getElem?_of_mem hl
    have hj'lt : j' < (acc'.take i).length :=
      (List.getElem?_eq_some_iff.mp hj').1
    have hj'lt_i : j' < i := by
      rw [List.length_take] at hj'lt
      omega
    have hacc : acc'[j']? = some l := by
      rw [← List.getElem?_take_of_lt hj'lt_i]
      exact hj'
    have hjj : j = j' := flatten_nodup_unique_group E1 hgj hacc hdj hdl
    omega

/-! ## Chunking lemmas -/

/-- Reference chunking: consecutive chunks of size `m + 1`. -/
def chunkSucc (m : Nat) : List String → List (List String)
  | [] => []
  | a :: t => (a :: t.take m) :: chunkSucc m (t.drop m)
termination_by l => l.length
decreasing_by
  simp only [List.length_cons, List.length_drop]
  omega

theorem chunkSucc_nil (m : Nat) : chunkSucc m [] = [] := by
  rw [chunkSucc]

theorem chunkSucc_cons (m : Nat) (a : String) (t : List String) :
    chunkSucc m (a :: t) = (a :: t.take m) :: chunkSucc m (t.drop m) := by
  rw [chunkSucc]

theorem pyRangePos_nil {start stop : Nat} (m1 : Nat) (h : ¬ start < stop) :
    pyRangePos start stop m1 = [] := by
  rw [pyRangePos, if_neg h]

theorem pyRangePos_cons {start stop : Nat} (m1 : Nat) (h : start < stop) :
    pyRangePos start stop m1 =
      start :: pyRangePos (start + (m1 + 1)) stop m1 := by
  rw [pyRangePos, if_pos h]

theorem chunkSucc_flatten (m : Nat) : ∀ (n : Nat) (g : List String),
    g.length ≤ n → (chunkSucc m g).flatten = g := by
  intro n
  induction n with
  | zero =>
    intro g hg
    have : g = [] := List.eq_nil_of_length_eq_zero (by omega)
    subst this
    rw [chunkSucc_nil]
    rfl
  | succ n ih =>
    intro g hg
    cases g with
    | nil => rw [chunkSucc_nil]; rfl
    | cons a t =>
      rw [chunkSucc_cons, List.flatten_cons]
      rw [ih (t.drop m) (by rw [List.length_drop]; simp at hg; omega)]
      rw [List.cons_append, List.take_append_drop]

theorem chunkSucc_chunks (m : Nat) : ∀ (n : Nat) (g : List String),
    g.length ≤ n → ∀ c ∈ chunkSucc m g, c.length ≤ m + 1 ∧ c ≠ [] := by
  intro n
  induction n with
  | zero =>
    intro g hg c hc
    have : g = [] := List.eq_nil_of_length_eq_zero (by omega)
    subst this
    rw [chunkSucc_nil] at hc
    cases hc
  | succ n ih =>
    intro g hg c hc
    cases g with
    | nil =>
      rw [chunkSucc_nil] at hc
      cases hc
    | cons a t =>
      rw [chunkSucc_cons] at hc
      rcases List.mem_cons.mp hc with rfl | hc'
      · constructor
        · simp only [List.length_cons, List.length_take]
          omega
        · simp
      · exact ih (t.drop m) (by rw [List.length_drop]; simp at hg; omega) c hc'

theorem pyRangePos_shift (m1 k : Nat) : ∀ (n start stop : Nat),
    stop - start ≤ n →
    pyRangePos (start + k) stop m1 =
      (pyRangePos start (stop - k) m1).map (fun x => x + k) := by
  intro n
  induction n with
  | zero =>
    intro start stop h
    rw [pyRangePos_nil m1 (by omega : ¬ start + k < stop),
      pyRangePos_nil m1 (by omega : ¬ start < stop - k)]
    rfl
  | succ n ih =>
    intro start stop h
    by_cases h1 : start + k < stop
    · rw [pyRangePos_cons m1 h1, pyRangePos_cons m1 (by omega : start < stop - k)]
      rw [List.map_cons]
      congr 1
      have hadd : start + k + (m1 + 1) = start + (m1 + 1) + k := by omega
      rw [hadd]
      exact ih (start + (m1 + 1)) stop (by omega)
    · rw [pyRangePos_nil m1 h1, pyRangePos_nil m1 (by omega : ¬ start < stop - k)]
      rfl

theorem pyRange_chunks (m1 : Nat) : ∀ (n : Nat) (g : List String),
    g.length ≤ n →
    (pyRangePos 0 g.length m1).map (fun i => (g.drop i).take (m1 + 1)) =
      chunkSucc m1 g := by
  intro n
  induction n with
  | zero =>
    intro g hg
    have : g = [] := List.eq_nil_of_length_eq_zero (by omega)
    subst this
    rw [pyRangePos_nil m1 (by simp), chunkSucc_nil]
    rfl
  | succ n ih =>
    intro g hg
    cases g with
    | nil =>
      rw [pyRangePos_nil m1 (by simp), chunkSucc_nil]
      rfl
    | cons a t =>
      rw [pyRangePos_cons m1 (by simp : 0 < (a :: t).length), List.map_cons]
      rw [chunkSucc_cons]
      congr 1
      have hshift := pyRangePos_shift m1 (m1 + 1) (t.length + 1) 0
        (t.length + 1) (by omega)
      simp only [Nat.zero_add] at hshift
      simp only [Nat.zero_add, List.length_cons]
      rw [hshift, List.map_map]
      have hlen : t.length + 1 - (m1 + 1) = (t.drop m1).length := by
        rw [List.length_drop]
        omega
      rw [hlen]
      rw [← ih (t.drop m1) (by rw [List.length_drop]; simp at hg; omega)]
      apply List.map_congr_left
      intro i _
      show ((a :: t).drop (i + (m1 + 1))).take (m1 + 1) =
        (((t.drop m1)).drop i).take (m1 + 1)
      congr 1
      rw [List.drop_drop]
      show (a :: t).drop (i + (m1 + 1)) = t.drop (m1 + i)
      rw [show i + (m1 + 1) = (m1 + i) + 1 from by omega]
      rw [List.drop_succ_cons]

theorem pyChunks_pos (g : List String) (mp : Int) (h : 0 < mp) :
    pyChunks g mp = some (chunkSucc (mp.toNat - 1) g) := by
  unfold pyChunks
  rw [if_neg (by omega : ¬ mp = 0), if_neg (by omega : ¬ mp < 0)]
  congr 1
  have hmp : mp.toNat = (mp.toNat - 1) + 1 := by omega
  rw [hmp]
  exact pyRange_chunks (mp.toNat - 1) g.length g le_rfl

theorem splitGroups_pos (groups : List (List String)) (mp : Int)
    (h : 0 < mp) :
    splitGroups groups mp =
      .ok (groups.flatMap (chunkSucc (mp.toNat - 1))) := by
  induction groups with
  | nil => rfl
  | cons g rest ih =>
    rw [splitGroups, pyChunks_pos g mp h, ih]
    rfl

theorem splitGroups_neg (groups : List (List String)) (mp : Int)
    (h : mp < 0) : splitGroups groups mp = .ok [] := by
  induction groups with
  | nil => rfl
  | cons g rest ih =>
    rw [splitGroups]
    have : pyChunks g mp = some [] := by
      unfold pyChunks
      rw [if_neg (by omega : ¬ mp = 0), if_pos h]
    rw [this, ih]
    rfl

theorem splitGroups_zero (g : List String) (rest : List (List String)) :
    splitGroups (g :: rest) 0 = .error .rangeZeroStep := by
  rw [splitGroups]
  have : pyChunks g 0 = none := by
    unfold pyChunks
    rw [if_pos rfl]
  rw [this]

/-! ## Runtime-tracker lemmas -/

theorem mark_executed_notnode (ns : Nodes) (name status : String)
    (h : lookupNode ns name = none) :
    mark_executed ns name status = ns := by
  unfold mark_executed
  rw [h]
  rfl

theorem lookup_mark_self (ns : Nodes) (name status : String) (v : DAGNode)
    (h : lookupNode ns name = some v) :
    lookupNode (mark_executed ns name status) name =
      some { v with executed := true, status := some status } := by
  unfold mark_executed
  rw [h]
  simp only [Option.isSome_some, if_pos]
  rw [lookupNode_setNode, if_pos rfl, h]
  rfl

theorem lookup_mark_other (ns : Nodes) (name status x : String)
    (hx : x ≠ name) :
    lookupNode (mark_executed ns name status) x = lookupNode ns x := by
  unfold mark_executed
  by_cases h : (lookupNode ns name).isSome
  · rw [if_pos h, lookupNode_setNode, if_neg hx]
  · rw [if_neg h]

theorem mark_twice (ns : Nodes) (name s1 s2 : String) (v : DAGNode)
    (h : lookupNode ns name = some v) :
    lookupNode (mark_executed (mark_executed ns name s1) name s2) name =
      some { v with executed := true, status := some s2 } := by
  have h1 := lookup_mark_self ns name s1 v h
  have h2 := lookup_mark_self (mark_executed ns name s1) name s2 _ h1
  rw [h2]

theorem is_ready_iff (ns : Nodes) (name : String) (node : DAGNode)
    (h : lookupNode ns name = some node) :
    (is_ready ns name = true ↔
      ∀ d ∈ node.dependencies, executedOf ns d = true) := by
  unfold is_ready
  rw [h]
  rw [List.all_eq_true]

/-- The status-free view of a node: everything `is_ready`,
`get_ready_suites` and the scheduler can observe. -/
def nodeCore (d : DAGNode) : TestSuite × List String × List String × Bool :=
  (d.suite, d.dependencies, d.dependents, d.executed)

theorem lookup_core_congr (ns1 ns2 : Nodes)
    (h : ns1.map (fun p => (p.1, nodeCore p.2)) =
      ns2.map (fun p => (p.1, nodeCore p.2))) (x : String) :
    (lookupNode ns1 x).map nodeCore = (lookupNode ns2 x).map nodeCore := by
  induction ns1 generalizing ns2 with
  | nil =>
    cases ns2 with
    | nil => rfl
    | cons q rest2 => cases h
  | cons p rest ih =>
    cases ns2 with
    | nil => cases h
    | cons q rest2 =>
      simp only [List.map_cons, List.cons.injEq, Prod.mk.injEq] at h
      obtain ⟨⟨hkey, hcore⟩, htail⟩ := h
      rw [lookupNode_cons, lookupNode_cons, hkey]
      by_cases hqx : q.1 = x
      · rw [if_pos hqx, if_pos hqx]
        simp [hcore]
      · rw [if_neg hqx, if_neg hqx]
        exact ih rest2 htail

theorem executedOf_eq_of_core (ns1 ns2 : Nodes)
    (h : ns1.map (fun p => (p.1, nodeCore p.2)) =
      ns2.map (fun p => (p.1, nodeCore p.2))) (x : String) :
    executedOf ns1 x = executedOf ns2 x := by
  have hc := lookup_core_congr ns1 ns2 h x
  unfold executedOf
  cases h1 : lookupNode ns1 x with
  | none =>
    cases h2 : lookupNode ns2 x with
    | none => rfl
    | some v2 => rw [h1, h2] at hc; cases hc
  | some v1 =>
    cases h2 : lookupNode ns2 x with
    | none => rw [h1, h2] at hc; cases hc
    | some v2 =>
      rw [h1, h2] at hc
      simp only [Option.map_some', Option.some.injEq] at hc
      have he : v1.executed = v2.executed := congrArg (fun c => c.2.2.2) hc
      simp [he]

theorem is_ready_eq_of_core (ns1 ns2 : Nodes)
    (h : ns1.map (fun p => (p.1, nodeCore p.2)) =
      ns2.map (fun p => (p.1, nodeCore p.2))) (x : String) :
    is_ready ns1 x = is_ready ns2 x := by
  have hc := lookup_core_congr ns1 ns2 h x
  have hfun : (fun d => executedOf ns1 d) = (fun d => executedOf ns2 d) :=
    funext (fun d => executedOf_eq_of_core ns1 ns2 h d)
  unfold is_ready
  cases h1 : lookupNode ns1 x with
  | none =>
    cases h2 : lookupNode ns2 x with
    | none => rfl
    | some v2 => rw [h1, h2] at hc; cases hc
  | some v1 =>
    cases h2 : lookupNode ns2 x with
    | none => rw [h1, h2] at hc; cases hc
    | some v2 =>
      rw [h1, h2] at hc
      simp only [Option.map_some', Option.some.injEq] at hc
      have hdeps : v1.dependencies = v2.dependencies :=
        congrArg (fun c => c.2.1) hc
      show (v1.dependencies.all fun dep => executedOf ns1 dep) =
        (v2.dependencies.all fun dep => executedOf ns2 dep)
      rw [hdeps, hfun]

theorem get_ready_suites_eq_of_core (ns1 ns2 : Nodes)
    (h : ns1.map (fun p => (p.1, nodeCore p.2)) =
      ns2.map (fun p => (p.1, nodeCore p.2))) :
    get_ready_suites ns1 = get_ready_suites ns2 := by
  have hready := is_ready_eq_of_core ns1 ns2 h
  unfold get_ready_suites
  have main : ∀ (l1 l2 : Nodes),
      l1.map (fun p => (p.1, nodeCore p.2)) =
        l2.map (fun p => (p.1, nodeCore p.2)) →
      (l1.filter (fun p => !p.2.executed && is_ready ns1 p.1)).map Prod.fst =
      (l2.filter (fun p => !p.2.executed && is_ready ns2 p.1)).map Prod.fst := by
    intro l1
    induction l1 with
    | nil =>
      intro l2 hl
      cases l2 with
      | nil => rfl
      | cons q rest2 => cases hl
    | cons p rest ih =>
      intro l2 hl
      cases l2 with
      | nil => cases hl
      | cons q rest2 =>
        simp only [List.map_cons, List.cons.injEq, Prod.mk.injEq] at hl
        obtain ⟨⟨hkey, hcore⟩, htail⟩ := hl
        have hexec : p.2.executed = q.2.executed :=
          congrArg (fun c => c.2.2.2) hcore
        rw [List.filter_cons, List.filter_cons]
        have hpr : (!p.2.executed && is_ready ns1 p.1) =
            (!q.2.executed && is_ready ns2 q.1) := by
          rw [hexec, hkey, hready q.1]
        rw [hpr]
        by_cases hcond : (!q.2.executed && is_ready ns2 q.1) = true
        · rw [if_pos hcond, if_pos hcond]
          rw [List.map_cons, List.map_cons, hkey, ih rest2 htail]
        · rw [if_neg hcond, if_neg hcond]
          exact ih rest2 htail
  exact main ns1 ns2 h

/-! ## Further chunking helpers: contiguity and chunk lengths -/

/-- Every chunk produced by `chunkSucc` is the contiguous slice
`group[i : i + (m+1)]` of the original group, exactly as the source's
`group[i:i + max_parallel]` slice expression writes it. -/
theorem chunkSucc_contig (m : Nat) : ∀ (n : Nat) (g : List String),
    g.length ≤ n → ∀ c ∈ chunkSucc m g, ∃ i, c = (g.drop i).take (m + 1) := by
  intro n
  induction n with
  | zero =>
    intro g hg c hc
    have : g = [] := List.eq_nil_of_length_eq_zero (by omega)
    subst this
    rw [chunkSucc_nil] at hc
    cases hc
  | succ n ih =>
    intro g hg c hc
    cases g with
    | nil => rw [chunkSucc_nil] at hc; cases hc
    | cons a t =>
      rw [chunkSucc_cons] at hc
      rcases List.mem_cons.mp hc with h0 | hc'
      · refine ⟨0, ?_⟩
        rw [h0, List.drop_zero, List.take_succ_cons]
      · obtain ⟨i, hi⟩ := ih (t.drop m)
          (by rw [List.length_drop]; simp at hg; omega) c hc'
        refine ⟨m + i + 1, ?_⟩
        have hd : (a :: t).drop (m + i + 1) = t.drop (m + i) := rfl
        rw [hd, hi, List.drop_drop]

/-- Chunking loses no element and keeps the global order: flattening the
chunked groups gives back the flattened groups. -/
theorem flatMap_chunkSucc_flatten (k : Nat) (groups : List (List String)) :
    (groups.flatMap (chunkSucc k)).flatten = groups.flatten := by
  induction groups with
  | nil => rfl
  | cons g rest ih =>
    rw [List.flatMap_cons, List.flatten_append, ih, List.flatten_cons,
      chunkSucc_flatten k g.length g le_rfl]

/-- The chunk-length profile of a list of length `L` cut into chunks of
size `m1 + 1`. -/
def lenChunks (m1 L : Nat) : List Nat :=
  if L = 0 then [] else min (m1 + 1) L :: lenChunks m1 (L - (m1 + 1))
termination_by L
decreasing_by omega

theorem lenChunks_zero (m1 : Nat) : lenChunks m1 0 = [] := by
  rw [lenChunks, if_pos rfl]

theorem lenChunks_pos (m1 L : Nat) (h : L ≠ 0) :
    lenChunks m1 L = min (m1 + 1) L :: lenChunks m1 (L - (m1 + 1)) := by
  rw [lenChunks, if_neg h]

/-- The lengths of the chunks depend only on the group's length. -/
theorem chunkSucc_map_length (m : Nat) : ∀ (n : Nat) (g : List String),
    g.length ≤ n → (chunkSucc m g).map List.length = lenChunks m g.length := by
  intro n
  induction n with
  | zero =>
    intro g hg
    have : g = [] := List.eq_nil_of_length_eq_zero (by omega)
    subst this
    simp only [chunkSucc_nil, List.map_nil, List.length_nil, lenChunks_zero]
  | succ n ih =>
    intro g hg
    cases g with
    | nil => simp only [chunkSucc_nil, List.map_nil, List.length_nil, lenChunks_zero]
    | cons a t =>
      rw [chunkSucc_cons, List.map_cons,
        ih (t.drop m) (by rw [List.length_drop]; simp at hg; omega),
        List.length_drop, lenChunks_pos m (a :: t).length (by simp)]
      simp only [List.length_cons, List.length_take]
      congr 1
      · omega
      · congr 1
        omega

/-! ## Status-independence helpers -/

/-- The `mark_executed` write commutes with the status-free view: two
writes to the same name that differ only in the status keep the two maps
core-equal. -/
theorem setNode_mark_core_congr (name s1 s2 : String) : ∀ (ns1 ns2 : Nodes),
    ns1.map (fun p => (p.1, nodeCore p.2)) =
      ns2.map (fun p => (p.1, nodeCore p.2)) →
    (setNode ns1 name
        (fun d => { d with executed := true, status := some s1 })).map
      (fun p => (p.1, nodeCore p.2)) =
    (setNode ns2 name
        (fun d => { d with executed := true, status := some s2 })).map
      (fun p => (p.1, nodeCore p.2)) := by
  intro ns1
  induction ns1 with
  | nil =>
    intro ns2 h
    cases ns2 with
    | nil => rfl
    | cons q rest2 => cases h
  | cons p rest ih =>
    intro ns2 h
    cases ns2 with
    | nil => cases h
    | cons q rest2 =>
      simp only [List.map_cons, List.cons.injEq, Prod.mk.injEq] at h
      obtain ⟨⟨hkey, hcore⟩, htail⟩ := h
      have hs : p.2.suite = q.2.suite := congrArg (fun c => c.1) hcore
      have hd : p.2.dependencies = q.2.dependencies :=
        congrArg (fun c => c.2.1) hcore
      have hdd : p.2.dependents = q.2.dependents :=
        congrArg (fun c => c.2.2.1) hcore
      simp only [setNode, List.map_cons]
      congr 1
      · by_cases hp : p.1 = name
        · rw [if_pos hp, if_pos (hkey.symm.trans hp)]
          dsimp only [nodeCore]
          rw [hkey, hs, hd, hdd]
        · rw [if_neg hp, if_neg (fun hq => hp (hkey.trans hq))]
          dsimp only [nodeCore]
          have he : p.2.executed = q.2.executed :=
            congrArg (fun c => c.2.2.2) hcore
          rw [hkey, hs, hd, hdd, he]
      · exact ih rest2 htail

/-- Two core-equal node maps stay core-equal after `mark_executed` with
the same name and arbitrary (possibly different) statuses. -/
theorem mark_core_congr (ns1 ns2 : Nodes)
    (h : ns1.map (fun p => (p.1, nodeCore p.2)) =
      ns2.map (fun p => (p.1, nodeCore p.2)))
    (name s1 s2 : String) :
    (mark_executed ns1 name s1).map (fun p => (p.1, nodeCore p.2)) =
      (mark_executed ns2 name s2).map (fun p => (p.1, nodeCore p.2)) := by
  have hc := lookup_core_congr ns1 ns2 h name
  have hsome : (lookupNode ns1 name).isSome = (lookupNode ns2 name).isSome := by
    cases h1 : lookupNode ns1 name with
    | none =>
      cases h2 : lookupNode ns2 name with
      | none => rfl
      | some v2 => rw [h1, h2] at hc; cases hc
    | some v1 =>
      cases h2 : lookupNode ns2 name with
      | none => rw [h1, h2] at hc; cases hc
      | some v2 => rfl
  unfold mark_executed
  by_cases hb : (lookupNode ns1 name).isSome
  · rw [if_pos hb, if_pos (hsome ▸ hb)]
    exact setNode_mark_core_congr name s1 s2 ns1 ns2 h
  · rw [if_neg hb, if_neg (hsome ▸ hb)]
    exact h

/-- A run of completion reports: fold `mark_executed` over a list of
(name, status) pairs, in order. -/
def applyMarks (ns : Nodes) : List (String × String) → Nodes
  | [] => ns
  | (n, s) :: rest => applyMarks (mark_executed ns n s) rest

/-- Two runs that report the same names in the same order, with
arbitrarily different statuses, end in core-equal states. -/
theorem applyMarks_core_congr : ∀ (m1 m2 : List (String × String))
    (ns1 ns2 : Nodes),
    ns1.map (fun p => (p.1, nodeCore p.2)) =
      ns2.map (fun p => (p.1, nodeCore p.2)) →
    m1.map Prod.fst = m2.map Prod.fst →
    (applyMarks ns1 m1).map (fun p => (p.1, nodeCore p.2)) =
      (applyMarks ns2 m2).map (fun p => (p.1, nodeCore p.2)) := by
  intro m1
  induction m1 with
  | nil =>
    intro m2 ns1 ns2 h hn
    cases m2 with
    | nil => exact h
    | cons q rest2 => cases hn
  | cons p rest ih =>
    intro m2 ns1 ns2 h hn
    cases m2 with
    | nil => cases hn
    | cons q rest2 =>
      obtain ⟨n1, s1⟩ := p
      obtain ⟨n2, s2⟩ := q
      simp only [List.map_cons, List.cons.injEq] at hn
      obtain ⟨hname, htail⟩ := hn
      show (applyMarks (mark_executed ns1 n1 s1) rest).map
          (fun p => (p.1, nodeCore p.2)) =
        (applyMarks (mark_executed ns2 n2 s2) rest2).map
          (fun p => (p.1, nodeCore p.2))
      subst hname
      exact ih rest2 _ _ (mark_core_congr ns1 ns2 h n1 s1 s2) htail

/-! ## Concrete instances used by the claim theorems -/

def suiteA : TestSuite := { name := "a" }

def suiteB : TestSuite := { name := "b", dependencies := ["a"] }

def suiteA2 : TestSuite := { name := "a", category := "e2e" }

def cycA : TestSuite := { name := "a", dependencies := ["b"] }

def cycB : TestSuite := { name := "b", dependencies := ["a"] }

def selfDepZ : TestSuite := { name := "a", dependencies := ["a", "z"] }

/-- The graph `_build [suiteA]` produces. -/
def nsA : Nodes := [("a", mkNode suiteA)]

/-- The graph `_build [suiteA, suiteB]` produces. -/
def nsAB : Nodes :=
  [("a", { suite := suiteA, dependents := ["b"] }),
   ("b", { suite := suiteB, dependencies := ["a"] })]

/-- The graph the edge-insertion phase of `_build [cycA, cycB]` produces
(cycle detection then rejects it). -/
def nsCyc : Nodes :=
  [("a", { suite := cycA, dependencies := ["b"], dependents := ["b"] }),
   ("b", { suite := cycB, dependencies := ["a"], dependents := ["a"] })]

/-! ## The claims -/

/-- C1: refuted — code bug.  The static-plan computations are not
side-effect-free: on the freshly built one-suite graph,
`get_execution_order` returns a state in which the suite's execution
flag has been set (the source uses `node.executed = True` as its
"scheduled" marker inside the scheduling loop), so a `get_stats` call
made after another `get_stats` (which runs `get_execution_order`
internally) reports `executed = 1` although `mark_executed` was never
called.  Only the status field is left untouched. -/
theorem dag_C1_mutation_bug :
    _build [suiteA] = .ok nsA ∧
    executedOf nsA "a" = false ∧
    executedOf (get_execution_order nsA).2 "a" = true ∧
    statusOf (get_execution_order nsA).2 "a" = none ∧
    (get_stats nsA).1 =
      .ok { total_suites := 1, executed := 0, pending := 1,
            parallel_groups := 1 } ∧
    (get_stats (get_stats nsA).2).1 =
      .ok { total_suites := 1, executed := 1, pending := 0,
            parallel_groups := 1 } := by
  refine ⟨?_, rfl, rfl, rfl, rfl, rfl⟩
  simp [_build, createNodes, dictInsert, lookupNode, addAllEdges, addSuiteDeps,
    addEdge, setNode, detect_cycles, detectLoop, dfs, dfsDeps, depsOf, setC,
    mkNode, addDepFn, addDepdFn, suiteA, nsA, Except.map]

/-- C2: counterexample.  `is_ready` does not consult the suite's own
execution flag: after marking "a" executed, `is_ready "a"` is still
true, refuting the claim that readiness requires the suite itself to be
unexecuted. -/
theorem dag_C2_counterexample :
    executedOf (mark_executed nsA "a" "passed") "a" = true ∧
    is_ready (mark_executed nsA "a" "passed") "a" = true :=
  ⟨rfl, rfl⟩

/-- C2 (amended): for a name present in the graph, `is_ready` is true
iff every declared dependency's execution flag is set; the suite's own
flag plays no part. -/
theorem dag_C2_amended (ns : Nodes) (name : String) (node : DAGNode)
    (h : lookupNode ns name = some node) :
    (is_ready ns name = true ↔
      ∀ d ∈ node.dependencies, executedOf ns d = true) :=
  is_ready_iff ns name node h

theorem dag_C2_amended_witness :
    is_ready nsAB "b" = true ↔
      ∀ d ∈ ({ suite := suiteB, dependencies := ["a"] } : DAGNode).dependencies,
        executedOf nsAB d = true :=
  dag_C2_amended nsAB "b" { suite := suiteB, dependencies := ["a"] } rfl

/-- C4: counterexample.  A suite set whose dependency relation contains a
cycle (here the self-dependency of "a") does not necessarily fail with
the circular-dependency error: the unknown dependency "z" of the same
suite masks it, and construction reports `unknownDependency` instead. -/
theorem dag_C4_counterexample :
    "a" ∈ selfDepZ.dependencies ∧
    _build [selfDepZ] = .error (.unknownDependency "a" "z") :=
  ⟨by decide, rfl⟩

/-- C4 (amended): provided every dependency reference resolves (the edge
insertion phase succeeds), a cyclic graph makes `_build` fail with the
circular-dependency error, and the reported path, read as consecutive
pairs, is a closed loop of edges of the built graph, starting and ending
at the same suite. -/
theorem dag_C4_amended (suites : List TestSuite) (ns : Nodes)
    (hadd : addAllEdges suites (createNodes suites []) = .ok ns)
    (hcyc : HasCycle ns) :
    ∃ p, _build suites = .error (.circularDependency p) ∧ ClosedWalk ns p :=
  build_cycle_behaviour suites ns hadd hcyc

theorem dag_C4_amended_witness :
    ∃ p, _build [cycA, cycB] = .error (.circularDependency p) ∧
      ClosedWalk nsCyc p :=
  dag_C4_amended [cycA, cycB] nsCyc rfl
    ⟨["a", "b", "a"], by decide, rfl,
      List.chain'_cons.mpr ⟨by decide,
        List.chain'_cons.mpr ⟨by decide, List.chain'_singleton "a"⟩⟩⟩

/-- C5: counterexample.  Two descriptors named "a" raise no error:
`_build` succeeds, and the node kept for "a" comes from the later
descriptor — the earlier one is silently overwritten. -/
theorem dag_C5_counterexample :
    suiteA.name = suiteA2.name ∧ suiteA ≠ suiteA2 ∧
    _build [suiteA, suiteA2] = .ok [("a", mkNode suiteA2)] := by
  refine ⟨rfl, by decide, ?_⟩
  simp [_build, createNodes, dictInsert, lookupNode, addAllEdges, addSuiteDeps,
    addEdge, setNode, detect_cycles, detectLoop, dfs, dfsDeps, depsOf, setC,
    mkNode, addDepFn, addDepdFn, suiteA, suiteA2, Except.map]

/-- C5 (amended): duplicate names are never a construction error in the
node-creation phase; the dict assignment makes the last descriptor of a
name win, so the node stored for `x` is built from the last suite named
`x` in the input list. -/
theorem dag_C5_amended (suites : List TestSuite) (x : String) :
    lookupNode (createNodes suites []) x =
      (suites.reverse.find? (fun s => s.name = x)).map mkNode := by
  rw [lookupNode_createNodes]
  show Option.or ((suites.reverse.find? (fun s => s.name = x)).map mkNode) none
    = (suites.reverse.find? (fun s => s.name = x)).map mkNode
  rw [Option.or_none]

/-- C3: confirmed.  On every graph that `_build` accepts (which is
exactly the acyclic suite sets with valid dependency references),
`get_execution_order` succeeds, the concatenation of its groups is a
permutation of the node names (every suite exactly once), and every
suite sits at a strictly greater group index than each of its
dependencies — never the same group, never earlier. -/
theorem dag_C3_order (suites : List TestSuite) (ns : Nodes)
    (h : _build suites = .ok ns) :
    ∃ groups ns', get_execution_order ns = (.ok groups, ns') ∧
      List.Perm groups.flatten (ns.map Prod.fst) ∧
      (∀ (i j : Nat) (gi gj : List String) (s d : String),
        groups[i]? = some gi → groups[j]? = some gj →
        s ∈ gi → d ∈ depsOf ns s → d ∈ gj → j < i) := by
  obtain ⟨w, hf⟩ := build_wf suites ns h
  exact get_execution_order_spec ns w hf (build_ok_acyclic suites ns h)

theorem dag_C3_order_witness :
    ∃ groups ns', get_execution_order nsA = (.ok groups, ns') ∧
      List.Perm groups.flatten (nsA.map Prod.fst) ∧
      (∀ (i j : Nat) (gi gj : List String) (s d : String),
        groups[i]? = some gi → groups[j]? = some gj →
        s ∈ gi → d ∈ depsOf nsA s → d ∈ gj → j < i) :=
  dag_C3_order [suiteA] nsA (by
    simp [_build, createNodes, dictInsert, lookupNode, addAllEdges,
      addSuiteDeps, addEdge, setNode, detect_cycles, detectLoop, dfs, dfsDeps,
      depsOf, setC, mkNode, addDepFn, addDepdFn, suiteA, nsA, Except.map])

/-- C6: counterexample.  A non-positive ceiling does not fail with a
dedicated invalid-parallelism error: with ceiling `-1` the call succeeds
and silently drops the suite "a" (the result is empty), and with ceiling
`0` it fails with Python's `range` step-zero `ValueError` instead. -/
theorem dag_C6_counterexample :
    (get_parallel_groups nsA (-1)).1 = .ok [] ∧
    (get_parallel_groups nsA 0).1 = .error .rangeZeroStep :=
  ⟨rfl, rfl⟩

/-- C6 (amended): on a graph whose scheduling succeeds, a ceiling of `0`
propagates the `range` step-zero `ValueError` as soon as there is at
least one group (and returns an empty result on an empty graph), while a
negative ceiling silently returns an empty result, dropping every
suite.  No dedicated configuration error exists. -/
theorem dag_C6_amended (ns : Nodes) (groups : List (List String)) (mp : Int)
    (h : (get_execution_order ns).1 = .ok groups) (hmp : mp ≤ 0) :
    (get_parallel_groups ns mp).1 =
      if mp = 0 then
        (if groups.isEmpty then .ok [] else .error .rangeZeroStep)
      else .ok [] := by
  unfold get_parallel_groups
  cases hpr : get_execution_order ns with
  | mk fst snd =>
    rw [hpr] at h
    have hfst : fst = Except.ok groups := h
    subst hfst
    dsimp only
    by_cases h0 : mp = 0
    · subst h0
      cases groups with
      | nil => rfl
      | cons g rest =>
        show splitGroups (g :: rest) 0 = Except.error DAGError.rangeZeroStep
        exact splitGroups_zero g rest
    · rw [if_neg h0]
      show splitGroups groups mp = Except.ok []
      exact splitGroups_neg groups mp (by omega)

theorem dag_C6_amended_witness :
    (get_parallel_groups nsA 0).1 =
      if (0 : Int) = 0 then
        (if ([["a"]] : List (List String)).isEmpty then .ok []
         else .error .rangeZeroStep)
      else .ok [] :=
  dag_C6_amended nsA [["a"]] 0 rfl (by decide)

/-- C7: counterexample.  A second `mark_executed` for the same suite
raises nothing (the method is total) and silently overwrites the
previously recorded status: after marking "a" passed and then failed,
the stored status is "failed". -/
theorem dag_C7_counterexample :
    statusOf (mark_executed nsA "a" "passed") "a" = some "passed" ∧
    statusOf (mark_executed (mark_executed nsA "a" "passed") "a" "failed") "a" =
      some "failed" ∧
    executedOf (mark_executed (mark_executed nsA "a" "passed") "a" "failed") "a" =
      true :=
  ⟨rfl, rfl, rfl⟩

/-- C7 (amended): re-marking an executed suite is accepted silently: the
second call leaves the flag set and replaces the recorded status with
the new one, so the last report wins. -/
theorem dag_C7_amended (ns : Nodes) (name s1 s2 : String) (v : DAGNode)
    (h : lookupNode ns name = some v) :
    lookupNode (mark_executed (mark_executed ns name s1) name s2) name =
      some { v with executed := true, status := some s2 } :=
  mark_twice ns name s1 s2 v h

theorem dag_C7_amended_witness :
    lookupNode (mark_executed (mark_executed nsA "a" "passed") "a" "failed") "a" =
      some { mkNode suiteA with executed := true, status := some "failed" } :=
  dag_C7_amended nsA "a" "passed" "failed" (mkNode suiteA) rfl

/-- C8: confirmed.  For a graph whose scheduling yields `groups` and a
positive ceiling `mp`, `get_parallel_groups` returns exactly the
per-group chunking: each group contributes its consecutive chunks in
order, flattening the result gives back the flattened groups element for
element (so the total count is preserved), every chunk is a nonempty
contiguous slice `g[i : i + mp]` of the single original group it came
from (never mixing two groups) of length at most `mp`, and a group of
size 10 with ceiling 4 yields chunk sizes 4, 4, 2. -/
theorem dag_C8_chunking (ns : Nodes) (groups : List (List String)) (mp : Int)
    (hmp : 0 < mp) (h : (get_execution_order ns).1 = .ok groups) :
    (get_parallel_groups ns mp).1 =
      .ok (groups.flatMap (chunkSucc (mp.toNat - 1))) ∧
    (groups.flatMap (chunkSucc (mp.toNat - 1))).flatten = groups.flatten ∧
    (∀ c ∈ groups.flatMap (chunkSucc (mp.toNat - 1)),
      ∃ g ∈ groups, ∃ i, c ≠ [] ∧ c.length ≤ mp.toNat ∧
        c = (g.drop i).take mp.toNat) ∧
    (∀ g : List String, g.length = 10 →
      (chunkSucc 3 g).map List.length = [4, 4, 2]) := by
  have hm1 : mp.toNat - 1 + 1 = mp.toNat := by omega
  refine ⟨?_, flatMap_chunkSucc_flatten _ groups, ?_, ?_⟩
  · unfold get_parallel_groups
    cases hpr : get_execution_order ns with
    | mk fst snd =>
      rw [hpr] at h
      have hfst : fst = Except.ok groups := h
      subst hfst
      dsimp only
      exact splitGroups_pos groups mp hmp
  · intro c hc
    obtain ⟨g, hg, hcg⟩ := List.mem_flatMap.mp hc
    obtain ⟨hlen, hne⟩ := chunkSucc_chunks (mp.toNat - 1) g.length g le_rfl c hcg
    obtain ⟨i, hci⟩ := chunkSucc_contig (mp.toNat - 1) g.length g le_rfl c hcg
    rw [hm1] at hlen hci
    exact ⟨g, hg, i, hne, hlen, hci⟩
  · intro g hg
    have hml := chunkSucc_map_length 3 g.length g le_rfl
    rw [hg] at hml
    have e1 : lenChunks 3 10 = 4 :: lenChunks 3 6 := by
      rw [lenChunks_pos 3 10 (by omega), Nat.min_eq_left (by omega)]
    have e2 : lenChunks 3 6 = 4 :: lenChunks 3 2 := by
      rw [lenChunks_pos 3 6 (by omega), Nat.min_eq_left (by omega)]
    have e3 : lenChunks 3 2 = 2 :: lenChunks 3 0 := by
      rw [lenChunks_pos 3 2 (by omega), Nat.min_eq_right (by omega)]
    rw [hml, e1, e2, e3, lenChunks_zero]

theorem dag_C8_chunking_witness :
    (get_parallel_groups nsA 4).1 =
      .ok ([["a"]].flatMap (chunkSucc ((4 : Int).toNat - 1))) ∧
    (([["a"]] : List (List String)).flatMap
      (chunkSucc ((4 : Int).toNat - 1))).flatten = [["a"]].flatten ∧
    (∀ c ∈ ([["a"]] : List (List String)).flatMap
        (chunkSucc ((4 : Int).toNat - 1)),
      ∃ g ∈ ([["a"]] : List (List String)), ∃ i, c ≠ [] ∧
        c.length ≤ (4 : Int).toNat ∧ c = (g.drop i).take (4 : Int).toNat) ∧
    (∀ g : List String, g.length = 10 →
      (chunkSucc 3 g).map List.length = [4, 4, 2]) :=
  dag_C8_chunking nsA [["a"]] 4 (by decide) rfl

/-- C9: confirmed.  Readiness is independent of recorded statuses: two
runs over the same graph that report the same suites in the same order,
with arbitrarily different status strings, yield states in which
`is_ready` agrees on every name and `get_ready_suites` returns the same
list — a dependency's failure status never blocks its dependents. -/
theorem dag_C9_status_blind (ns : Nodes)
    (marks1 marks2 : List (String × String))
    (hnames : marks1.map Prod.fst = marks2.map Prod.fst) :
    (∀ x, is_ready (applyMarks ns marks1) x =
      is_ready (applyMarks ns marks2) x) ∧
    get_ready_suites (applyMarks ns marks1) =
      get_ready_suites (applyMarks ns marks2) := by
  have hcore := applyMarks_core_congr marks1 marks2 ns ns rfl hnames
  exact ⟨fun x => is_ready_eq_of_core _ _ hcore x,
    get_ready_suites_eq_of_core _ _ hcore⟩

theorem dag_C9_status_blind_witness :
    (∀ x, is_ready (applyMarks nsAB [("a", "passed")]) x =
      is_ready (applyMarks nsAB [("a", "failed")]) x) ∧
    get_ready_suites (applyMarks nsAB [("a", "passed")]) =
      get_ready_suites (applyMarks nsAB [("a", "failed")]) :=
  dag_C9_status_blind nsAB [("a", "passed")] [("a", "failed")] rfl

/-- C10: confirmed.  Marking a name that is not a node of the graph is a
silent no-op: `mark_executed` raises nothing (it is total) and returns
the node map unchanged, so every node's execution flag and status are
exactly as before. -/
theorem dag_C10_unknown_noop (ns : Nodes) (name status : String)
    (h : isNode ns name = false) :
    mark_executed ns name status = ns := by
  apply mark_executed_notnode
  unfold isNode at h
  cases hl : lookupNode ns name with
  | none => rfl
  | some v => rw [hl] at h; cases h

theorem dag_C10_unknown_noop_witness :
    mark_executed nsA "zz" "passed" = nsA :=
  dag_C10_unknown_noop nsA "zz" "passed" rfl
